import Mathlib

set_option autoImplicit false

/-
  Verification development for the IntelStudy document-intelligence pipeline.

  The JavaScript source (backend/src/services/pdf.service.js, utils/retry.js,
  utils/circuitBreaker.js) is shallowly embedded below.  JavaScript strings are
  modelled as `List Char` (named `Str`); the JS regex operations used by the
  source (`split(/\s+/)`, `split(/[.!?]+/)`, `split(/\n\s*\n/)`, the global
  replaces in the summary cleanup, `match(/\[[\s\S]*\]/)`) are implemented
  with their exact leftmost/greedy semantics.  External effects (the axios
  HTTP call, `Date.now()`, `JSON.parse`) are supplied as environment
  parameters; everything else is translated function by function from the
  source.
-/

/-- JavaScript strings are modelled as lists of characters. -/
abbrev Str := List Char

/-- Character class of the JS regex `\s` (for the whitespace the pipeline can
meet: space, tab, newline, carriage return, vertical tab, form feed). -/
def jsIsWs (c : Char) : Bool :=
  c = ' ' || c = '\t' || c = '\n' || c = '\r' || c = '\x0b' || c = '\x0c'

/-- Character class of the JS regex `[.!?]` (sentence-terminal punctuation). -/
def isSentPunct (c : Char) : Bool :=
  c = '.' || c = '!' || c = '?'

/-- Character class of the JS regex `\w` (ASCII word characters). -/
def isWordChar (c : Char) : Bool :=
  c.isAlphanum || c = '_'

/-- Digit test for JS array-index keys. -/
def isDigitChar (c : Char) : Bool :=
  '0' ≤ c && c ≤ '9'

/-- Prepend a character to the first piece of a split result. -/
def consHead (c : Char) : List Str → List Str
  | [] => [[c]]
  | h :: t => (c :: h) :: t

/-- Scanner for `splitRuns`: `acc` is the current piece (reversed), `sep`
records whether the previous character belonged to a separator run. -/
def splitRunsGo (p : Char → Bool) : Str → Str → Bool → List Str
  | [], acc, _ => [acc.reverse]
  | c :: cs, acc, sep =>
    if p c then
      if sep then splitRunsGo p cs [] true
      else acc.reverse :: splitRunsGo p cs [] true
    else splitRunsGo p cs (c :: acc) false

/-- JS `String.prototype.split` with a regex matching maximal runs of a
character class (`/\s+/`, `/[.!?]+/`): maximal runs of `p`-characters are
separators; a separator at the start or end of the string contributes an
empty piece, and `"".split` gives `[""]`. -/
def splitRuns (p : Char → Bool) (s : Str) : List Str :=
  splitRunsGo p s [] false

/-- JS `String.prototype.trim`. -/
def jsTrim (s : Str) : Str :=
  ((s.dropWhile jsIsWs).reverse.dropWhile jsIsWs).reverse

/-- Scanner for `collapseWs`: the flag records whether the previous
character was whitespace (already emitted as a single space). -/
def collapseWsGo : Str → Bool → Str
  | [], _ => []
  | c :: cs, inRun =>
    if jsIsWs c then
      if inRun then collapseWsGo cs true else ' ' :: collapseWsGo cs true
    else c :: collapseWsGo cs false

/-- JS `.replace(/\s+/g, ' ')`: every maximal whitespace run becomes a single
space. -/
def collapseWs (s : Str) : Str :=
  collapseWsGo s false

/-- Scanner for `tripleNlFix`: `some run` holds the whitespace run (reversed)
opened by a newline; when the run closes it is replaced by `\n\n` when it
contains at least three newlines (the match ends at the last newline, so the
trailing whitespace of the run is emitted as content), and is emitted
verbatim otherwise. -/
def tripleNlFixGo : Str → Option Str → Str
  | [], none => []
  | [], some run =>
    if 3 ≤ (run.filter (· = '\n')).length then
      '\n' :: '\n' :: (run.takeWhile (fun d => d ≠ '\n')).reverse
    else run.reverse
  | c :: cs, none =>
    if c = '\n' then tripleNlFixGo cs (some ['\n'])
    else c :: tripleNlFixGo cs none
  | c :: cs, some run =>
    if jsIsWs c then tripleNlFixGo cs (some (c :: run))
    else if 3 ≤ (run.filter (· = '\n')).length then
      '\n' :: '\n' :: (run.takeWhile (fun d => d ≠ '\n')).reverse ++ c :: tripleNlFixGo cs none
    else run.reverse ++ c :: tripleNlFixGo cs none

/-- JS `.replace(/\n\s*\n\s*\n/g, '\n\n')`.  A greedy leftmost match runs from
the first to the last newline of a maximal whitespace run containing at least
three newlines; scanning resumes after the match. -/
def tripleNlFix (s : Str) : Str :=
  tripleNlFixGo s none

/-- Scanner for `replDotDot`: `some acc` means a dot was emitted and `acc`
holds the whitespace seen since (reversed); a second dot completes the match
(the pending whitespace is dropped), anything else flushes the pending
whitespace and resumes the ordinary scan. -/
def replDotDotGo : Str → Option Str → Str
  | [], none => []
  | [], some acc => acc.reverse
  | c :: cs, none =>
    if c = '.' then '.' :: replDotDotGo cs (some [])
    else c :: replDotDotGo cs none
  | c :: cs, some acc =>
    if c = '.' then replDotDotGo cs none
    else if jsIsWs c then replDotDotGo cs (some (c :: acc))
    else acc.reverse ++ c :: replDotDotGo cs none

/-- JS `.replace(/\.\s*\./g, '.')`: a greedy leftmost match is a dot, the
maximal whitespace run after it, and another dot; scanning resumes after the
match. -/
def replDotDot (s : Str) : Str :=
  replDotDotGo s none

/-- JS `String.prototype.toLowerCase` on the ASCII texts the pipeline handles. -/
def toLowerStr (s : Str) : Str :=
  s.map Char.toLower

/-- JS `String.prototype.includes`: substring test. -/
def includesStr (hay needle : Str) : Bool :=
  match hay with
  | [] => needle.isEmpty
  | _ :: t => needle.isPrefixOf hay || includesStr t needle

/-- JS `String.prototype.endsWith`-style test for the regex `/[.!?]$/`. -/
def endsWithPunct (s : Str) : Bool :=
  match s.getLast? with
  | some c => isSentPunct c
  | none => false

/-- Scanner for `splitParas`: `piece` is the current piece (reversed);
`some run` holds a whitespace run (reversed) opened by a newline.  A closing
run containing at least two newlines is a separator up to its last newline
(the trailing whitespace of the run starts the next piece); otherwise the
run is ordinary content. -/
def splitParasGo : Str → Str → Option Str → List Str
  | [], piece, none => [piece.reverse]
  | [], piece, some run =>
    if 2 ≤ (run.filter (· = '\n')).length then
      [piece.reverse, (run.takeWhile (fun d => d ≠ '\n')).reverse]
    else [(run ++ piece).reverse]
  | c :: cs, piece, none =>
    if c = '\n' then splitParasGo cs piece (some ['\n'])
    else splitParasGo cs (c :: piece) none
  | c :: cs, piece, some run =>
    if jsIsWs c then splitParasGo cs piece (some (c :: run))
    else if 2 ≤ (run.filter (· = '\n')).length then
      piece.reverse :: splitParasGo cs (c :: run.takeWhile (fun d => d ≠ '\n')) none
    else splitParasGo cs (c :: (run ++ piece)) none

/-- JS `String.prototype.split(/\n\s*\n/)`.  A greedy leftmost separator runs
from the first to the last newline of a maximal whitespace run containing at
least two newlines. -/
def splitParas (s : Str) : List Str :=
  splitParasGo s [] none

/-- Word-frequency table: JS `wordFreq[w] = (wordFreq[w] || 0) + 1` keeps the
insertion order of first occurrences. -/
def freqInsert (k : Str) : List (Str × Nat) → List (Str × Nat)
  | [] => [(k, 1)]
  | (k', n) :: rest => if k' = k then (k', n + 1) :: rest else (k', n) :: freqInsert k rest

/-- Numeric value of a digit string. -/
def natOfDigits (s : Str) : Nat :=
  s.foldl (fun n c => n * 10 + (c.toNat - 48)) 0

/-- JS object keys that are array indices (canonical decimal, below 2^32-1)
are enumerated first by `Object.entries`, in ascending numeric order. -/
def isArrayIndexKey (s : Str) : Bool :=
  !s.isEmpty && s.all isDigitChar && (s = ['0'] || s.head? ≠ some '0') &&
    natOfDigits s < 4294967295

/-- Stable ascending insertion by a numeric key (for array-index keys). -/
def insertAscBy (f : Str × Nat → Nat) (x : Str × Nat) : List (Str × Nat) → List (Str × Nat)
  | [] => [x]
  | y :: ys => if f y ≤ f x then y :: insertAscBy f x ys else x :: y :: ys

/-- Stable ascending insertion sort by a numeric key. -/
def sortAscBy (f : Str × Nat → Nat) : List (Str × Nat) → List (Str × Nat)
  | [] => []
  | x :: xs => insertAscBy f x (sortAscBy f xs)

/-- JS `Object.entries` enumeration order: array-index keys in ascending
numeric order first, then the remaining keys in insertion order. -/
def jsEntries (l : List (Str × Nat)) : List (Str × Nat) :=
  sortAscBy (fun p => natOfDigits p.1) (l.filter (fun p => isArrayIndexKey p.1)) ++
    l.filter (fun p => !isArrayIndexKey p.1)

/-- Stable insertion step for `.sort((a, b) => b[1] - a[1])`: an element is
placed after every earlier element with a strictly larger or equal count. -/
def insertDescByCount (x : Str × Nat) : List (Str × Nat) → List (Str × Nat)
  | [] => [x]
  | y :: ys => if x.2 < y.2 then y :: insertDescByCount x ys else x :: y :: ys

/-- Stable descending sort by count, as JS `Array.prototype.sort` (stable)
with comparator `(a, b) => b[1] - a[1]`. -/
def sortDescByCount : List (Str × Nat) → List (Str × Nat)
  | [] => []
  | x :: xs => insertDescByCount x (sortDescByCount xs)

/-- The chunk loop of `chunkText`: `for (i = 0; i < words.length; i += k)`.
(The JS loop does not terminate for `k = 0`; that argument never occurs, and
the model returns `[]` there.) -/
def chunksOfGo {α : Type} (k : Nat) : Nat → List α → List (List α)
  | _, [] => []
  | 0, _ :: _ => []
  | fuel + 1, x :: xs => ((x :: xs).take k) :: chunksOfGo k fuel ((x :: xs).drop k)

/-- `chunksOf k l` runs the loop with enough fuel (for `1 ≤ k` the fuel is
never exhausted). -/
def chunksOf {α : Type} (k : Nat) (l : List α) : List (List α) :=
  if k = 0 then [] else chunksOfGo k l.length l

/-- A JavaScript error value as the pipeline observes it: `message`,
`error.response?.status` (`none` when no response object is attached) and
`error.code`. -/
structure JSError where
  message : Str
  responseStatus : Option Nat
  code : Option Str
deriving DecidableEq, Repr

/-- A JSON value, for the payloads the inference API may return. -/
inductive JsonVal where
  | jnull : JsonVal
  | jbool : Bool → JsonVal
  | jnum : Int → JsonVal
  | jstr : Str → JsonVal
  | jarr : List JsonVal → JsonVal
  | jobj : List (Str × JsonVal) → JsonVal

/-- JS truthiness of a JSON value. -/
def JsonVal.truthy : JsonVal → Bool
  | .jnull => false
  | .jbool b => b
  | .jnum n => n ≠ 0
  | .jstr s => !s.isEmpty
  | .jarr _ => true
  | .jobj _ => true

/-- Property lookup on a JSON object (`undefined` is `none`). -/
def JsonVal.field : JsonVal → Str → Option JsonVal
  | .jobj fs, k => (fs.find? (fun p => p.1 = k)).map (·.2)
  | _, _ => none

/-- Test for the JSON value `null` (the only `JSON.parse` output on which a
property access throws a `TypeError`). -/
def JsonVal.isNull : JsonVal → Bool
  | .jnull => true
  | _ => false

mutual

/-- JS `String(v)` as used by `new Error(response.data.error)`.  An array
stringifies as its elements joined with commas (recursively, with `null`
elements contributing the empty string). -/
def JsonVal.asMessage : JsonVal → Str
  | .jstr s => s
  | .jnum n => n.repr.toList
  | .jbool true => "true".toList
  | .jbool false => "false".toList
  | .jnull => "null".toList
  | .jarr xs => JsonVal.asMessageJoin xs
  | .jobj _ => "[object Object]".toList

/-- `Array.prototype.toString`: the comma join of the stringified elements. -/
def JsonVal.asMessageJoin : List JsonVal → Str
  | [] => []
  | [v] => JsonVal.asMessageElem v
  | v :: w :: vs => JsonVal.asMessageElem v ++ ',' :: JsonVal.asMessageJoin (w :: vs)

/-- An element inside a joined array: `null` becomes empty, the rest
stringify as at top level. -/
def JsonVal.asMessageElem : JsonVal → Str
  | .jnull => []
  | .jstr s => s
  | .jnum n => n.repr.toList
  | .jbool true => "true".toList
  | .jbool false => "false".toList
  | .jarr xs => JsonVal.asMessageJoin xs
  | .jobj _ => "[object Object]".toList

end

/-- One observable behaviour of the external HTTP transport for a single
request: a response with a status, JSON body and status text, a timeout
(axios `ECONNABORTED`), or a lower-level network failure. -/
inductive HttpOutcome where
  | response : Nat → JsonVal → Str → HttpOutcome
  | timeout : HttpOutcome
  | netError : Str → HttpOutcome

/-- The external world: the outcome of the n-th HTTP request issued by the
process, and the n-th reading of `Date.now()`. -/
structure Env where
  http : Nat → HttpOutcome
  time : Nat → Nat

/-- The mutable state of `utils/circuitBreaker.js`, one instance shared by
every request (`hfCircuitBreaker`). -/
inductive CBStatus where
  | closed
  | opened
  | halfOpen
deriving DecidableEq, Repr

/-- Fields of the `CircuitBreaker` class. -/
structure CircuitBreaker where
  failureThreshold : Nat
  resetTimeout : Nat
  state : CBStatus
  failureCount : Nat
  nextAttempt : Nat
deriving DecidableEq, Repr

/-- Process state threaded through the pipeline: how many HTTP calls and
`Date.now()` readings have happened, and the shared breaker. -/
structure PState where
  calls : Nat
  ticks : Nat
  breaker : CircuitBreaker
deriving DecidableEq, Repr

/-- `CircuitBreaker.onSuccess`. -/
def cbOnSuccess (st : PState) : PState :=
  { st with breaker := { st.breaker with failureCount := 0, state := .closed } }

/-- `CircuitBreaker.onFailure`: increments `failureCount` and, at the
threshold, opens the circuit with `nextAttempt = Date.now() + resetTimeout`. -/
def cbOnFailure (env : Env) (st : PState) : PState :=
  let fc := st.breaker.failureCount + 1
  if st.breaker.failureThreshold ≤ fc then
    { st with
      ticks := st.ticks + 1
      breaker := { st.breaker with
        failureCount := fc
        state := .opened
        nextAttempt := env.time st.ticks + st.breaker.resetTimeout } }
  else
    { st with breaker := { st.breaker with failureCount := fc } }

/-- The distinct circuit-open error. -/
def circuitOpenError : JSError :=
  ⟨"Circuit breaker is OPEN. Service temporarily unavailable.".toList, none, none⟩

/-- `CircuitBreaker.execute(fn)`: fail fast while open and before
`nextAttempt` (without running `fn`), otherwise run `fn` (in half-open state
if the circuit was open) and apply `onSuccess`/`onFailure` to the outcome. -/
def cbExecute {α : Type} (env : Env) (op : PState → Except JSError α × PState) (st : PState) :
    Except JSError α × PState :=
  if st.breaker.state = .opened then
    let now := env.time st.ticks
    let st1 : PState := { st with ticks := st.ticks + 1 }
    if now < st1.breaker.nextAttempt then
      (.error circuitOpenError, st1)
    else
      let st2 : PState := { st1 with breaker := { st1.breaker with state := .halfOpen } }
      match op st2 with
      | (.ok a, st') => (.ok a, cbOnSuccess st')
      | (.error e, st') => (.error e, cbOnFailure env st')
  else
    match op st with
    | (.ok a, st') => (.ok a, cbOnSuccess st')
    | (.error e, st') => (.error e, cbOnFailure env st')

/-- Loop body of `retryOnCondition` from `utils/retry.js`, with
`attemptsLeft = maxRetries - attempt`.  The operation and the predicate may
carry state of type `σ` (a JS closure environment). -/
def retryOnConditionGo {σ E A : Type} (fn : σ → Except E A × σ) (shouldRetry : σ → E → Bool × σ) :
    Nat → σ → Except E A × σ
  | left, s =>
    match fn s with
    | (.ok a, s') => (.ok a, s')
    | (.error e, s') =>
      match left with
      | 0 => (.error e, s')
      | left' + 1 =>
        match shouldRetry s' e with
        | (true, s'') => retryOnConditionGo fn shouldRetry left' s''
        | (false, s'') => (.error e, s'')

/-- `retryOnCondition(fn, shouldRetry, maxRetries)`: run `fn`; on failure,
retry while `shouldRetry(error)` holds and fewer than `maxRetries` retries
have happened, else propagate the error (`shouldRetry` is not consulted on
the last attempt). -/
def retryOnCondition {σ E A : Type} (fn : σ → Except E A × σ) (shouldRetry : σ → E → Bool × σ)
    (maxRetries : Nat) (s : σ) : Except E A × σ :=
  retryOnConditionGo fn shouldRetry maxRetries s

/-- The axios instance `hfAxios` (`validateStatus: (status) => status < 500`):
a response with status below 500 resolves; a status of 500 or above rejects
with the response attached; timeouts reject with code `ECONNABORTED`; other
transport failures reject with no response. -/
def hfAxiosRespond : HttpOutcome → Except JSError (Nat × JsonVal × Str)
  | .response status data statusText =>
    if status < 500 then
      .ok (status, data, statusText)
    else
      .error ⟨"Request failed with status code ".toList ++ (Nat.repr status).toList,
        some status, some "ERR_BAD_RESPONSE".toList⟩
  | .timeout =>
    .error ⟨"timeout of 120000ms exceeded".toList, none, some "ECONNABORTED".toList⟩
  | .netError msg =>
    .error ⟨msg, none, none⟩

/-- The `try` block inside the operation `callHuggingFace` passes to
`retryOnCondition`: issue the request, then classify sub-500 statuses and a
truthy `response.data.error` by throwing plain `Error` objects (which carry
no `response`). -/
def hfTryClassify (o : HttpOutcome) : Except JSError JsonVal :=
  match hfAxiosRespond o with
  | .error e => .error e
  | .ok (status, data, statusText) =>
    if status = 503 then
      .error ⟨"Model is loading. Please wait a moment and try again.".toList, none, none⟩
    else if status = 429 then
      .error ⟨"Rate limit exceeded. Please try again later.".toList, none, none⟩
    else if status = 410 then
      .error ⟨"API endpoint deprecated. Please update the application.".toList, none, none⟩
    else if 400 ≤ status then
      .error ⟨"API error: ".toList ++ (Nat.repr status).toList ++ " - ".toList ++ statusText,
        none, none⟩
    else
      match data.field "error".toList with
      | some v =>
        if v.truthy then .error ⟨v.asMessage, none, none⟩ else .ok data
      | none => .ok data

/-- The `catch` block of that operation: errors carrying a response are
rethrown unchanged; `ECONNABORTED` becomes the request-timeout error; every
other caught error (including the classified sub-500 errors thrown in the
`try` block, which carry no response) is re-wrapped as a network error. -/
def hfInvokeResult (o : HttpOutcome) : Except JSError JsonVal :=
  match hfTryClassify o with
  | .ok a => .ok a
  | .error e =>
    if e.responseStatus.isSome then
      .error e
    else if e.code = some "ECONNABORTED".toList then
      .error ⟨"Request timeout. The model is taking too long to respond.".toList, none, none⟩
    else
      .error ⟨"Network error: ".toList ++ e.message, none, none⟩

/-- One invocation of the operation passed to `retryOnCondition`: classify
the outcome of the next transport call and advance the call counter. -/
def hfInvokeOnce (env : Env) (st : PState) : Except JSError JsonVal × PState :=
  (hfInvokeResult (env.http st.calls), { st with calls := st.calls + 1 })

/-- The retry predicate of `callHuggingFace`:
`status === 503 || status === 429 || status === 408 || !error.response`. -/
def hfShouldRetry (e : JSError) : Bool :=
  e.responseStatus = some 503 || e.responseStatus = some 429 ||
    e.responseStatus = some 408 || e.responseStatus = none

/-- `callHuggingFace(model, inputs, options)`: the shared circuit breaker
around a conditional retry (3 retries) of a single classified request.  The
model name, inputs and task parameters configure the outgoing request; the
transport model indexes outcomes by call order. -/
def callHuggingFace (env : Env) (_model _inputs : Str) (st : PState) :
    Except JSError JsonVal × PState :=
  cbExecute env
    (fun s =>
      retryOnCondition (fun s' => hfInvokeOnce env s') (fun s' e => (hfShouldRetry e, s')) 3 s)
    st

/-- `chunkText(text, wordsPerChunk = 600)` from `pdf.service.js`. -/
def chunkText (text : Str) (wordsPerChunk : Nat) : Except JSError (List Str) :=
  if (jsTrim text).isEmpty then
    .error ⟨"Text is empty".toList, none, none⟩
  else
    let words := splitRuns jsIsWs text
    if words.length ≤ wordsPerChunk then
      .ok [text]
    else
      .ok ((chunksOf wordsPerChunk words).map (List.intercalate [' ']))

/-- The output record of `extractKeyInformation`. -/
structure Extracted where
  introSection : List Str
  importantSentences : List Str
  keyTerms : List Str
  paragraphs : List Str

/-- The stopword list of `extractKeyInformation` (note: every entry is at
most 5 characters long, so the `length > 5` guard already excludes all of
them). -/
def summaryStopWords : List Str :=
  ["the".toList, "this".toList, "that".toList, "with".toList, "from".toList,
    "which".toList, "their".toList, "there".toList]

/-- `word.replace(/[^\w]/g, '')`. -/
def cleanWordOf (w : Str) : Str :=
  w.filter isWordChar

/-- The `words.forEach` frequency accumulation, parameterised by the keep
condition on the cleaned word. -/
def buildWordFreq (keep : Str → Bool) (words : List Str) : List (Str × Nat) :=
  words.foldl (fun acc w => let cw := cleanWordOf w; if keep cw then freqInsert cw acc else acc) []

/-- `extractKeyInformation(text)`.  `Math.floor(sentences.length * 0.2)`
computed in JS doubles equals `sentences.length / 5` in integers for every
length a string can have. -/
def extractKeyInformation (text : Str) : Extracted :=
  let sentences := (splitRuns isSentPunct text).filter (fun s => 20 < (jsTrim s).length)
  let paragraphs := (splitParas text).filter (fun p => 50 < (jsTrim p).length)
  let introSection := sentences.take (sentences.length / 5)
  let words := splitRuns jsIsWs (toLowerStr text)
  let wordFreq :=
    buildWordFreq (fun cw => 5 < cw.length && !summaryStopWords.contains cw) words
  let keyTerms := ((sortDescByCount (jsEntries wordFreq)).take 15).map (·.1)
  let importantSentences :=
    (sentences.filter (fun s => keyTerms.any (fun t => includesStr (toLowerStr s) t))).take 10
  ⟨introSection, importantSentences, keyTerms, paragraphs.take 5⟩

/-- Indicator lists of `createStructuredSummary`. -/
def problemIndicators : List Str :=
  ["problem".toList, "issue".toList, "challenge".toList, "aim".toList, "goal".toList,
    "purpose".toList, "objective".toList, "propose".toList, "present".toList,
    "introduce".toList, "study".toList, "research".toList, "investigate".toList]

/-- Method indicator words. -/
def methodIndicators : List Str :=
  ["method".toList, "approach".toList, "technique".toList, "algorithm".toList,
    "system".toList, "framework".toList, "model".toList, "process".toList, "procedure".toList]

/-- Result indicator words. -/
def resultIndicators : List Str :=
  ["result".toList, "finding".toList, "show".toList, "demonstrate".toList, "achieve".toList,
    "obtain".toList, "observe".toList, "conclude".toList, "indicate".toList]

/-- `introSection.find(s => problemIndicators.some(...)) || introSection[0]`. -/
def pickProblemSentence (introSection : List Str) : Str :=
  match introSection.find?
      (fun s => problemIndicators.any (fun ind => includesStr (toLowerStr s) ind)) with
  | some s => s
  | none => introSection.headD []

/-- The `importantSentences.forEach` deduplication loop: keep sentences of
trimmed length strictly between 40 and 250, first occurrence only, pushing
the trimmed sentence. -/
def organizeSentences : List Str → List Str → List Str
  | [], _ => []
  | s :: rest, used =>
    if !used.contains s && 40 < (jsTrim s).length && (jsTrim s).length < 250 then
      jsTrim s :: organizeSentences rest (s :: used)
    else
      organizeSentences rest used

/-- `createStructuredSummary(extracted)`: intro, main points, approach,
findings, conclusion sections (each `summary +=` step modelled as an
appended part, empty when its condition fails), then the
whitespace/duplicate-dot cleanup chain. -/
def createStructuredSummary (extracted : Extracted) : Str :=
  let introSection := extracted.introSection
  let importantSentences := extracted.importantSentences
  let paragraphs := extracted.paragraphs
  let summary1 : Str :=
    if 0 < introSection.length then
      let problemSentence := pickProblemSentence introSection
      if !problemSentence.isEmpty then
        (jsTrim problemSentence ++
          (if problemSentence.length < 150 && 1 < introSection.length then
            ' ' :: jsTrim (introSection.getD 1 [])
          else []) ++ "\n\n".toList)
      else
        let intro := List.intercalate [' '] (introSection.take 2)
        (intro.take 250 ++ (if 250 < intro.length then "...".toList else []) ++ "\n\n".toList)
    else []
  let organized := organizeSentences importantSentences []
  let part2 : Str :=
    if 0 < importantSentences.length && 0 < organized.length then
      "Main Points:\n".toList ++
        ((organized.take 6).foldl (fun acc s =>
          let cleanSentence := jsTrim s
          acc ++ "â€¢ ".toList ++
            (if endsWithPunct cleanSentence then cleanSentence else cleanSentence ++ ['.']) ++
            ['\n']) []) ++ ['\n']
    else []
  let methodSentences :=
    importantSentences.filter (fun s => methodIndicators.any (fun i => includesStr (toLowerStr s) i))
  let part3 : Str :=
    if 0 < methodSentences.length then
      let m0 := methodSentences.headD []
      "Approach: ".toList ++ jsTrim m0 ++
        (if endsWithPunct m0 then [] else ['.']) ++ "\n\n".toList
    else []
  let resultSentences :=
    importantSentences.filter (fun s => resultIndicators.any (fun i => includesStr (toLowerStr s) i))
  let part4 : Str :=
    if 0 < resultSentences.length then
      let r0 := resultSentences.headD []
      "Key Findings: ".toList ++ jsTrim r0 ++
        (if endsWithPunct r0 then [] else ['.']) ++ "\n\n".toList
    else []
  let part5 : Str :=
    match paragraphs.getLast? with
    | some conclusion =>
      if !conclusion.isEmpty && 50 < conclusion.length then
        let conclusionText := jsTrim conclusion
        "Conclusion: ".toList ++ conclusionText.take 200 ++
          (if 200 < conclusionText.length then "...".toList else []) ++
          (if endsWithPunct conclusionText then [] else ['.'])
      else []
    | none => []
  jsTrim (replDotDot (tripleNlFix (collapseWs (jsTrim
    (summary1 ++ part2 ++ part3 ++ part4 ++ part5)))))

/-- The deterministic extractive fallback used throughout `summarizeText`
(`const extracted = extractKeyInformation(text); return
createStructuredSummary(extracted)`). -/
def extractiveSummary (text : Str) : Str :=
  createStructuredSummary (extractKeyInformation text)

/-- Truthy field of the head element of an array result
(`Array.isArray(result) && result[0]?.k`). -/
def arrHeadField (result : JsonVal) (k : Str) : Option JsonVal :=
  match result with
  | .jarr (x :: _) =>
    match x.field k with
    | some v => if v.truthy then some v else none
    | none => none
  | _ => none

/-- Truthy field of an object result (`result.k`). -/
def objField (result : JsonVal) (k : Str) : Option JsonVal :=
  match result.field k with
  | some v => if v.truthy then some v else none
  | none => none

/-- The summary extraction chain of `summarizeText`:
`result[0]?.summary_text || result.summary_text || result[0]?.generated_text
|| result.generated_text` with the array checks of the source. -/
def pickSummaryVal (result : JsonVal) : Option JsonVal :=
  match arrHeadField result "summary_text".toList with
  | some v => some v
  | none =>
    match objField result "summary_text".toList with
    | some v => some v
    | none =>
      match arrHeadField result "generated_text".toList with
      | some v => some v
      | none => objField result "generated_text".toList

/-- The ordered summarization candidate list. -/
def summaryModels : List Str :=
  ["google/flan-t5-large".toList, "google/flan-t5-base".toList,
    "Falconsai/text_summarization".toList, "facebook/bart-large-cnn".toList,
    "google/pegasus-xsum".toList, "sshleifer/distilbart-cnn-12-6".toList]

/-- The structured prompt used for flan-t5 summarization candidates. -/
def summaryPromptHeader : Str :=
  ("Summarize the following text in a clear, structured way. Include:\n" ++
    "1. Main topic/problem statement\n" ++
    "2. Key points and findings  \n" ++
    "3. Important conclusions\n\nText: ").toList

/-- Per-model prompt construction in `summarizeText`. -/
def mkSummaryPrompt (model text : Str) : Str :=
  if includesStr model "flan-t5".toList then
    summaryPromptHeader ++ text.take 2000 ++ "\n\nSummary:".toList
  else if includesStr model "Falconsai".toList then
    text.take 2000
  else if 2000 < text.length then text.take 2000 else text

/-- The model loop of `summarizeText`: a usable (>50 chars trimmed) model
summary is cleaned up and returned (after the fragmentation check); an
unusable payload advances to the next candidate; a thrown error advances, or
returns the extractive fallback on the last candidate; a completed loop
returns the extractive fallback. -/
def summarizeLoop (env : Env) (text : Str) : List Str → PState → Except JSError Str × PState
  | [], st => (.ok (extractiveSummary text), st)
  | model :: rest, st =>
    match callHuggingFace env model (mkSummaryPrompt model text) st with
    | (.ok result, st') =>
      match pickSummaryVal result with
      | some (.jstr s) =>
        if 50 < (jsTrim s).length then
          let cleanedSummary := replDotDot (collapseWs (jsTrim s))
          if 10 < (List.splitOnP isSentPunct cleanedSummary).length &&
              cleanedSummary.length < 200 then
            let structured := extractiveSummary text
            (.ok (if cleanedSummary.length < structured.length then structured
              else cleanedSummary), st')
          else
            (.ok cleanedSummary, st')
        else
          summarizeLoop env text rest st'
      | some _ =>
        if model = "sshleifer/distilbart-cnn-12-6".toList then
          (.ok (extractiveSummary text), st')
        else
          summarizeLoop env text rest st'
      | none => summarizeLoop env text rest st'
    | (.error _, st') =>
      if model = "sshleifer/distilbart-cnn-12-6".toList then
        (.ok (extractiveSummary text), st')
      else
        summarizeLoop env text rest st' 

/-- `summarizeText(text)`: extractive summarization below 500 words,
otherwise the model cascade.  The computed request parameters
(`targetLength = max(150, min(400, floor(wordCount * 0.2)))` and the derived
`max_length`/`min_length`) configure the outgoing requests only. -/
def summarizeText (env : Env) (text : Str) (st : PState) : Except JSError Str × PState :=
  if (jsTrim text).isEmpty then
    (.error ⟨"Text is empty or invalid".toList, none, none⟩, st)
  else
    let wordCount := (splitRuns jsIsWs text).length
    if wordCount < 500 then
      (.ok (extractiveSummary text), st)
    else
      summarizeLoop env text summaryModels st

/-- An MCQ as the pipeline builds it.  Parsed model output may place
arbitrary JSON values in the fields; the deterministic fallback always uses
strings. -/
structure MCQ where
  question : JsonVal
  options : List JsonVal
  answer : JsonVal

/-- JS `v?.[0]` on a JSON value (array element, string character, object
property "0"). -/
def jsIndexZero : JsonVal → Option JsonVal
  | .jarr (x :: _) => some x
  | .jarr [] => none
  | .jstr (c :: _) => some (.jstr [c])
  | .jstr [] => none
  | .jobj fs => (fs.find? (fun p => p.1 = "0".toList)).map (·.2)
  | _ => none

/-- The element normalization of the parsed MCQ array:
`question || default`, `options` kept only as a 4-element array, and
`answer || options?.[0] || 'Option A'` (reading the raw `options` field). -/
def mapParsedMCQ (m : JsonVal) : MCQ :=
  let defaultOptions : List JsonVal :=
    [.jstr "Option A".toList, .jstr "Option B".toList,
      .jstr "Option C".toList, .jstr "Option D".toList]
  let question :=
    match m.field "question".toList with
    | some v => if v.truthy then v else .jstr "Question not generated".toList
    | none => .jstr "Question not generated".toList
  let options :=
    match m.field "options".toList with
    | some (.jarr xs) => if xs.length = 4 then xs else defaultOptions
    | _ => defaultOptions
  let answer :=
    match m.field "answer".toList with
    | some v =>
      if v.truthy then v
      else
        match (m.field "options".toList).bind jsIndexZero with
        | some w => if w.truthy then w else .jstr "Option A".toList
        | none => .jstr "Option A".toList
    | none =>
      match (m.field "options".toList).bind jsIndexZero with
      | some w => if w.truthy then w else .jstr "Option A".toList
      | none => .jstr "Option A".toList
  ⟨question, options, answer⟩

/-- `mcqText.match(/\[[\s\S]*\]/)`: greedily from the first `[` to the last
`]`, when the last `]` is not before the first `[`. -/
def matchBracket (s : Str) : Option Str :=
  let t := s.dropWhile (fun c => c ≠ '[')
  if t.isEmpty then none
  else
    let r := t.reverse.dropWhile (fun c => c ≠ ']')
    if r.isEmpty then none else some r.reverse

/-- The MCQ text extraction chain of `generateMCQs`
(`result[0]?.generated_text || result.generated_text`, else the result
itself when it is a string — without a truthiness requirement). -/
def pickMCQTextVal (result : JsonVal) : Option JsonVal :=
  match arrHeadField result "generated_text".toList with
  | some v => some v
  | none =>
    match objField result "generated_text".toList with
    | some v => some v
    | none =>
      match result with
      | .jstr s => some (.jstr s)
      | _ => none

/-- The ordered MCQ candidate list. -/
def mcqModels : List Str :=
  ["google/flan-t5-large".toList, "google/flan-t5-base".toList,
    "microsoft/DialoGPT-large".toList, "gpt2".toList, "distilgpt2".toList]

/-- The MCQ generation prompt. -/
def mkMCQPrompt (text : Str) : Str :=
  ("You are an expert educator. Create exactly 5 diverse multiple-choice questions (mix what/why/how/which/identify) based on the text below. Each question must be clear and concise. Vary structure and avoid revealing answers in the question. Return ONLY valid JSON array with objects: \x7b\"question\": \"...\", \"options\": [\"A\",\"B\",\"C\",\"D\"], \"answer\": \"one of the options\"\x7d.\n\nText:\n").toList ++
    text.take 1500 ++ "\n\nJSON Array:".toList

/-- The five cycling question templates of `generateIntelligentMCQs`. -/
def mcqQuestionTemplate (i : Nat) (phrase : Str) : Str :=
  match i % 5 with
  | 0 => "What is mentioned about \"".toList ++ phrase ++ "\"?".toList
  | 1 => "According to the text, which statement is true regarding \"".toList ++ phrase ++ "\"?".toList
  | 2 => "How does the text describe \"".toList ++ phrase ++ "\"?".toList
  | 3 => "Why is \"".toList ++ phrase ++ "\" important according to the document?".toList
  | _ => "Identify the key aspect of \"".toList ++ phrase ++ "\" mentioned in the text.".toList

/-- One iteration of the sentence loop of `generateIntelligentMCQs`:
sentences with trimmed length below 30 are skipped; the computed `keyTerm`
local of the source is not used by the emitted question. -/
def mcqOfSentence (i : Nat) (sentRaw : Str) : Option MCQ :=
  let sentence := jsTrim sentRaw
  if sentence.length < 30 then none
  else
    let keyPhrase := sentence.take (min 60 sentence.length)
    let question :=
      mcqQuestionTemplate i
        (keyPhrase.take 40 ++ (if 40 < keyPhrase.length then "...".toList else []))
    let options : List Str :=
      [sentence.take (min 80 sentence.length) ++ (if 80 < sentence.length then "...".toList else []),
        "It is not discussed in the text".toList,
        "The text provides conflicting information".toList,
        "Further research is needed on this topic".toList]
    some ⟨.jstr question, (options.take 4).map .jstr, .jstr (options.headD [])⟩

/-- The padding MCQ pushed by the `while (mcqs.length < 5)` loop. -/
def paddingMCQ (importantWords : List Str) : MCQ :=
  let topics := importantWords.take 4
  let topic :=
    match topics.head? with
    | some t => if t.isEmpty then "the subject".toList else t
    | none => "the subject".toList
  ⟨.jstr ("What is the main focus regarding \"".toList ++ topic ++ "\" in this document?".toList),
    [.jstr "It is the primary topic discussed".toList,
      .jstr "It is mentioned briefly".toList,
      .jstr "It is not relevant to the document".toList,
      .jstr "It requires additional context".toList],
    .jstr "It is the primary topic discussed".toList⟩

/-- `generateIntelligentMCQs(text)`: deterministic MCQ synthesis from the
first qualifying sentences, padded to five entries. -/
def generateIntelligentMCQs (text : Str) : List MCQ :=
  let sentences := (splitRuns isSentPunct text).filter (fun s => 20 < (jsTrim s).length)
  let words := splitRuns jsIsWs (toLowerStr text)
  let wordFreq := buildWordFreq (fun cw => 4 < cw.length) words
  let importantWords := ((sortDescByCount (jsEntries wordFreq)).take 10).map (·.1)
  let fromSentences :=
    ((sentences.take 5).enum).filterMap (fun p => mcqOfSentence p.1 p.2)
  let padded := fromSentences ++ List.replicate (5 - fromSentences.length) (paddingMCQ importantWords)
  padded.take 5

/-- The model loop of `generateMCQs`: a parsed non-empty JSON array is
normalized and returned; unusable payloads, unparseable text, a `null`
among the first five parsed elements (property access on it throws a
`TypeError` inside the map, caught as a parse failure) and thrown errors
(the catch only logs) advance to the next candidate; an exhausted loop
falls through to `generateIntelligentMCQs`. -/
def mcqLoop (env : Env) (jsonParse : Str → Option JsonVal) (text : Str) :
    List Str → PState → Except JSError (List MCQ) × PState
  | [], st => (.ok (generateIntelligentMCQs text), st)
  | model :: rest, st =>
    match callHuggingFace env model (mkMCQPrompt text) st with
    | (.ok result, st') =>
      match pickMCQTextVal result with
      | some (.jstr s) =>
        if s.isEmpty then mcqLoop env jsonParse text rest st'
        else
          match matchBracket s with
          | some sub =>
            match jsonParse sub with
            | some (.jarr (x :: xs)) =>
              if ((x :: xs).take 5).any JsonVal.isNull then
                mcqLoop env jsonParse text rest st'
              else
                (.ok (((x :: xs).take 5).map mapParsedMCQ), st')
            | some _ => mcqLoop env jsonParse text rest st'
            | none => mcqLoop env jsonParse text rest st'
          | none => mcqLoop env jsonParse text rest st'
      | some _ => mcqLoop env jsonParse text rest st'
      | none => mcqLoop env jsonParse text rest st'
    | (.error _, st') => mcqLoop env jsonParse text rest st'

/-- `generateMCQs(text)`. -/
def generateMCQs (env : Env) (jsonParse : Str → Option JsonVal) (text : Str) (st : PState) :
    Except JSError (List MCQ) × PState :=
  if (jsTrim text).isEmpty then
    (.error ⟨"Text is empty or invalid".toList, none, none⟩, st)
  else
    mcqLoop env jsonParse text mcqModels st

/-- The terminal artifact of `processDocument`. -/
structure ProcessingResult where
  summary : Str
  mcqs : List MCQ

/-- The priority-chunk selection of `processDocument`:
`[chunks[0], chunks[Math.floor(chunks.length / 2)], chunks[chunks.length - 1]]
.filter(Boolean)` (dropping absent or empty entries, with no deduplication). -/
def priorityChunksOf (chunks : List Str) : List Str :=
  (([chunks.get? 0, chunks.get? (chunks.length / 2),
      chunks.get? (chunks.length - 1)]).filterMap id).filter (fun c => !c.isEmpty)

/-- The per-chunk summarization loop: failures are logged and skipped, and a
summary is kept only when truthy and longer than 50 characters. -/
def sectionSummariesOf (env : Env) : List Str → PState → List Str × PState
  | [], st => ([], st)
  | chunk :: rest, st =>
    match summarizeText env chunk st with
    | (.ok summary, st') =>
      let (others, st'') := sectionSummariesOf env rest st'
      (if !summary.isEmpty && 50 < summary.length then summary :: others else others, st'')
    | (.error _, st') => sectionSummariesOf env rest st'

/-- The minimum-quality step of `processDocument` (lines 647-655): a falsy
summary or one of trimmed length below 100 is replaced by the extractive
composer output whenever that output is strictly longer. -/
def ensureSummaryQuality (text finalSummary : Str) : Str :=
  if finalSummary.isEmpty || (jsTrim finalSummary).length < 100 then
    let enhanced := extractiveSummary text
    if finalSummary.length < enhanced.length then enhanced else finalSummary
  else finalSummary

/-- The summary-producing stage of `processDocument` (lines 600-645): the
chunked multi-stage path for documents over 3000 words, the direct path
otherwise. -/
def summarizePath (env : Env) (text : Str) (st : PState) : Except JSError Str × PState :=
  if 3000 < (splitRuns jsIsWs text).length then
    match chunkText text 1000 with
    | .error e => (.error e, st)
    | .ok chunks =>
      let priorityChunks := priorityChunksOf chunks
      let secRes := sectionSummariesOf env priorityChunks st
      let sectionSummaries := secRes.1
      let stA := secRes.2
      if 0 < sectionSummaries.length then
        let combined := List.intercalate "\n\n".toList sectionSummaries
        if 500 < combined.length then
          summarizeText env combined stA
        else
          (.ok combined, stA)
      else
        summarizeText env (text.take 3000) stA
  else
    summarizeText env text st

/-- `processDocument(text)`: input validation, the summary stage, the
minimum-quality step, MCQ generation over the full text, and the final
`slice(0, 5)`. -/
def processDocument (env : Env) (jsonParse : Str → Option JsonVal) (text : Str) (st : PState) :
    Except JSError ProcessingResult × PState :=
  if (jsTrim text).isEmpty then
    (.error ⟨"Document text is empty or invalid".toList, none, none⟩, st)
  else
    match summarizePath env text st with
    | (.error e, st1) => (.error e, st1)
    | (.ok finalSummary0, st1) =>
      let finalSummary := ensureSummaryQuality text finalSummary0
      match generateMCQs env jsonParse text st1 with
      | (.error e, st2) => (.error e, st2)
      | (.ok mcqs, st2) => (.ok ⟨jsTrim finalSummary, mcqs.take 5⟩, st2)

/-
  Claim theorems.
-/

/-- C7: `retryOnCondition` invokes the operation once and retries only while
the predicate accepts the last error and the bound is not reached,
propagating the error otherwise; with a stateful predicate answering `true`
exactly on its first consultation and `maxRetries = 3`, an always-failing
operation is invoked exactly 2 times (the state counts operation and
predicate invocations) before its error propagates. -/
theorem retryOnCondition_policy {E A : Type} (e : E)
    (fn : Nat × Nat → Except E A × (Nat × Nat))
    (p : Nat × Nat → E → Bool × (Nat × Nat))
    (hfn : ∀ s, fn s = (.error e, (s.1 + 1, s.2)))
    (hp : ∀ s x, p s x = (decide (s.2 = 0), (s.1, s.2 + 1))) :
    retryOnCondition fn p 3 (0, 0) = (.error e, (2, 2)) ∧
    (∀ (σ : Type) (fn' : σ → Except E A × σ) (p' : σ → E → Bool × σ) (m : Nat) (s s' : σ)
      (a : A), fn' s = (.ok a, s') → retryOnCondition fn' p' m s = (.ok a, s')) ∧
    (∀ (σ : Type) (fn' : σ → Except E A × σ) (p' : σ → E → Bool × σ) (m : Nat) (s s' s'' : σ)
      (e' : E), fn' s = (.error e', s') → 0 < m → p' s' e' = (false, s'') →
      retryOnCondition fn' p' m s = (.error e', s'')) ∧
    (∀ (σ : Type) (fn' : σ → Except E A × σ) (p' : σ → E → Bool × σ) (s s' : σ)
      (e' : E), fn' s = (.error e', s') → retryOnCondition fn' p' 0 s = (.error e', s')) := by
  refine ⟨?_, ?_, ?_, ?_⟩
  · show retryOnConditionGo fn p 3 (0, 0) = (.error e, (2, 2))
    simp [retryOnConditionGo, hfn, hp]
  · intro σ fn' p' m s s' a h
    cases m <;> simp [retryOnCondition, retryOnConditionGo, h]
  · intro σ fn' p' m s s' s'' e' h hm hp'
    obtain ⟨m', rfl⟩ : ∃ m', m = m' + 1 := ⟨m - 1, by omega⟩
    simp [retryOnCondition, retryOnConditionGo, h, hp']
  · intro σ fn' p' s s' e' h
    simp [retryOnCondition, retryOnConditionGo, h]

/-- Witness for `retryOnCondition_policy` at a concrete operation and
predicate over `E = A = Nat`. -/
theorem retryOnCondition_policy_witness :
    retryOnCondition (E := Nat) (A := Nat)
      (fun s => (.error 7, (s.1 + 1, s.2))) (fun s _ => (decide (s.2 = 0), (s.1, s.2 + 1)))
      3 (0, 0) = (.error 7, (2, 2)) :=
  (retryOnCondition_policy 7 _ _ (fun _ => rfl) (fun _ _ => rfl)).1

/-- `n` consecutive failing calls through the shared breaker (the wrapped
operation itself fails without touching process state). -/
def cbFailTimes (env : Env) (e : JSError) : Nat → PState → PState
  | 0, st => st
  | n + 1, st =>
    cbFailTimes env e n (cbExecute env (fun s => (.error (α := JsonVal) e, s)) st).2

/-- A closed breaker strictly below its threshold accumulates failures
without opening and without reading the clock. -/
theorem cbFailTimes_closed (env : Env) (e : JSError) :
    ∀ (n : Nat) (st : PState), st.breaker.state = .closed →
    st.breaker.failureCount + n < st.breaker.failureThreshold →
    cbFailTimes env e n st =
      { st with breaker := { st.breaker with failureCount := st.breaker.failureCount + n } } := by
  intro n
  induction n with
  | zero => intro st h _; simp [cbFailTimes]
  | succ n ih =>
    intro st hclosed hlt
    have hne : st.breaker.state ≠ CBStatus.opened := by rw [hclosed]; simp
    have hstep : (cbExecute env (fun s => (.error (α := JsonVal) e, s)) st).2 =
        { st with breaker := { st.breaker with failureCount := st.breaker.failureCount + 1 } } := by
      simp only [cbExecute, if_neg hne, cbOnFailure]
      rw [if_neg (by omega)]
    rw [cbFailTimes, hstep, ih _ (by simp [hclosed]) (by simp only []; omega)]
    simp only [PState.mk.injEq, CircuitBreaker.mk.injEq, true_and, and_true]
    omega

/-- A closed breaker exactly one failure short of its threshold after `n`
more failures opens on the final one, reading the clock there. -/
theorem cbFailTimes_opens (env : Env) (e : JSError) :
    ∀ (n : Nat) (st : PState), st.breaker.state = .closed →
    st.breaker.failureCount + n + 1 = st.breaker.failureThreshold →
    cbFailTimes env e (n + 1) st =
      { st with
        ticks := st.ticks + 1
        breaker := { st.breaker with
          failureCount := st.breaker.failureThreshold
          state := .opened
          nextAttempt := env.time st.ticks + st.breaker.resetTimeout } } := by
  intro n
  induction n with
  | zero =>
    intro st hclosed heq
    have hne : st.breaker.state ≠ CBStatus.opened := by rw [hclosed]; simp
    simp only [cbFailTimes, cbExecute, if_neg hne, cbOnFailure]
    rw [if_pos (by omega)]
    simp only [PState.mk.injEq, CircuitBreaker.mk.injEq, true_and, and_true]
    omega
  | succ n ih =>
    intro st hclosed heq
    have hne : st.breaker.state ≠ CBStatus.opened := by rw [hclosed]; simp
    have hstep : (cbExecute env (fun s => (.error (α := JsonVal) e, s)) st).2 =
        { st with breaker := { st.breaker with failureCount := st.breaker.failureCount + 1 } } := by
      simp only [cbExecute, if_neg hne, cbOnFailure]
      rw [if_neg (by omega)]
    rw [cbFailTimes, hstep, ih _ (by simp [hclosed]) (by simp only []; omega)]

/-- C3: the circuit breaker three-state machine.  (1) Starting closed with
zero failures, `failureThreshold ≥ 1` consecutive failing calls leave the
breaker open with `nextAttempt = Date.now() + resetTimeout` read at the
opening failure; (2) while open, a call strictly before `nextAttempt` fails
fast with the circuit-open error and identical state (ignoring the wrapped
operation entirely, for every operation); (3) a call at or after
`nextAttempt` runs the operation in half-open state, and its outcome alone
decides the next state: success closes the breaker and resets
`failureCount` to 0, failure (at or above the threshold, as every reachable
open state is) reopens it with a fresh `nextAttempt`. -/
theorem circuitBreaker_state_machine (env : Env) :
    (∀ (e : JSError) (st : PState), st.breaker.state = .closed →
      st.breaker.failureCount = 0 → 1 ≤ st.breaker.failureThreshold →
      cbFailTimes env e st.breaker.failureThreshold st =
        { st with
          ticks := st.ticks + 1
          breaker := { st.breaker with
            failureCount := st.breaker.failureThreshold
            state := .opened
            nextAttempt := env.time st.ticks + st.breaker.resetTimeout } }) ∧
    (∀ (α : Type) (op : PState → Except JSError α × PState) (st : PState),
      st.breaker.state = .opened → env.time st.ticks < st.breaker.nextAttempt →
      cbExecute env op st = (.error circuitOpenError, { st with ticks := st.ticks + 1 })) ∧
    (∀ (α : Type) (op : PState → Except JSError α × PState) (st st' : PState) (a : α),
      st.breaker.state = .opened → st.breaker.nextAttempt ≤ env.time st.ticks →
      op { st with
        ticks := st.ticks + 1
        breaker := { st.breaker with state := .halfOpen } } = (.ok a, st') →
      cbExecute env op st =
        (.ok a, { st' with breaker := { st'.breaker with failureCount := 0, state := .closed } })) ∧
    (∀ (α : Type) (op : PState → Except JSError α × PState) (st st' : PState) (e : JSError),
      st.breaker.state = .opened → st.breaker.nextAttempt ≤ env.time st.ticks →
      op { st with
        ticks := st.ticks + 1
        breaker := { st.breaker with state := .halfOpen } } = (.error e, st') →
      st'.breaker.failureThreshold ≤ st'.breaker.failureCount + 1 →
      cbExecute env op st =
        (.error e, { st' with
          ticks := st'.ticks + 1
          breaker := { st'.breaker with
            failureCount := st'.breaker.failureCount + 1
            state := .opened
            nextAttempt := env.time st'.ticks + st'.breaker.resetTimeout } })) := by
  refine ⟨?_, ?_, ?_, ?_⟩
  · intro e st hclosed hcount hth
    obtain ⟨n, hn⟩ : ∃ n, st.breaker.failureThreshold = n + 1 :=
      ⟨st.breaker.failureThreshold - 1, by omega⟩
    have h2 := cbFailTimes_opens env e n st hclosed (by omega)
    rw [hn] at h2
    rw [hn]
    exact h2
  · intro α op st hopen hlt
    simp [cbExecute, hopen, hlt]
  · intro α op st st' a hopen hge hop
    have hnl : ¬ env.time st.ticks < st.breaker.nextAttempt := by omega
    simp [cbExecute, hopen, hnl, hop, cbOnSuccess]
  · intro α op st st' e hopen hge hop hth
    have hnl : ¬ env.time st.ticks < st.breaker.nextAttempt := by omega
    simp [cbExecute, hopen, hnl, hop, cbOnFailure, hth]

/-- Concrete environment for the circuit breaker witness: the clock always
reads 100. -/
def cbEnvW : Env := ⟨fun _ => .timeout, fun _ => 100⟩

/-- Witness for `circuitBreaker_state_machine`: a closed breaker with
threshold 2 opens after 2 failures with `nextAttempt = 100 + 60000`, and an
open breaker probed before `nextAttempt = 200` fails fast with identical
state regardless of the wrapped operation. -/
theorem circuitBreaker_state_machine_witness :
    cbFailTimes cbEnvW ⟨[], none, none⟩ 2 ⟨0, 0, ⟨2, 60000, .closed, 0, 0⟩⟩ =
      ⟨0, 1, ⟨2, 60000, .opened, 2, 60100⟩⟩ ∧
    cbExecute cbEnvW (fun s => (.ok JsonVal.jnull, s)) ⟨0, 0, ⟨5, 60000, .opened, 5, 200⟩⟩ =
      (.error circuitOpenError, ⟨0, 1, ⟨5, 60000, .opened, 5, 200⟩⟩) := by
  constructor
  · exact (circuitBreaker_state_machine cbEnvW).1 ⟨[], none, none⟩
      ⟨0, 0, ⟨2, 60000, .closed, 0, 0⟩⟩ rfl rfl (by decide)
  · exact (circuitBreaker_state_machine cbEnvW).2.1 JsonVal _
      ⟨0, 0, ⟨5, 60000, .opened, 5, 200⟩⟩ rfl (by decide)

/-- The process state at startup: no calls, no clock readings, and the
breaker as constructed (`failureThreshold: 5`, `resetTimeout: 60000`,
closed, `nextAttempt = Date.now()`, modelled as 0). -/
def pst0 : PState := ⟨0, 0, ⟨5, 60000, .closed, 0, 0⟩⟩

/-- A transport that always answers HTTP 410 Gone. -/
def env410W : Env := ⟨fun _ => .response 410 .jnull "Gone".toList, fun _ => 0⟩

/-- The error produced, if any, by a wrapped result. -/
def errOf {α : Type} : Except JSError α × PState → Option JSError
  | (.error e, _) => some e
  | (.ok _, _) => none

/-- C4 counterexample: the error the invoker produces for an HTTP 410
response is the re-wrapped network error carrying no response, the retry
predicate accepts it, and a full `callHuggingFace` against a transport that
always answers 410 issues the request 4 times (1 initial + 3 retries)
instead of stopping after the first. -/
theorem hf410_retried_counterexample :
    errOf (hfInvokeOnce env410W pst0) =
      some ⟨"Network error: API endpoint deprecated. Please update the application.".toList,
        none, none⟩ ∧
    hfShouldRetry
      ⟨"Network error: API endpoint deprecated. Please update the application.".toList,
        none, none⟩ = true ∧
    (callHuggingFace env410W "gpt2".toList [] pst0).2.calls = 4 := by
  refine ⟨by decide, by decide, by decide⟩

/-- An error thrown for a sub-500 response never carries a response object
(every such classified error is a plain `Error`). -/
theorem hfTryClassify_sub500 (status : Nat) (data : JsonVal) (statusText : Str)
    (e : JSError) (h500 : status < 500)
    (h : hfTryClassify (.response status data statusText) = .error e) :
    e.responseStatus = none ∧ e.code = none := by
  simp only [hfTryClassify, hfAxiosRespond, if_pos h500] at h
  repeat' split at h
  all_goals first
    | (injection h with h'; exact h' ▸ ⟨rfl, rfl⟩)
    | cases h

/-- An error thrown for a sub-500 response never carries a response object
(every such classified error is a plain `Error`), so the catch re-wraps it
as a network error. -/
theorem hfInvokeResult_sub500_no_response (status : Nat) (data : JsonVal) (statusText : Str)
    (e : JSError) (h500 : status < 500)
    (h : hfInvokeResult (.response status data statusText) = .error e) :
    e.responseStatus = none := by
  rw [hfInvokeResult] at h
  split at h
  · cases h
  case h_2 e' heq =>
    obtain ⟨h1, h2⟩ := hfTryClassify_sub500 status data statusText e' h500 heq
    rw [h1, h2] at h
    simp only [Option.isSome_none, Bool.false_eq_true, if_false] at h
    rw [if_neg (by simp)] at h
    injection h with h'
    rw [← h']

/-- C4 amended: the retry predicate combined with the invoker's error
shaping retries everything except server errors other than 503: an error
produced by one classified invocation is retryable exactly when the
transport outcome was not a response of status ≥ 500 different from 503.
In particular the "endpoint gone" (410) and generic 4xx errors, re-wrapped
without a response, are retried, while 500/502/504 responses are terminal. -/
theorem hfShouldRetry_characterization (o : HttpOutcome) (e : JSError)
    (h : hfInvokeResult o = .error e) :
    (∀ (status : Nat) (data : JsonVal) (statusText : Str),
      o = .response status data statusText →
      hfShouldRetry e = (status < 500 || status = 503)) ∧
    (o = .timeout → hfShouldRetry e = true) ∧
    (∀ (msg : Str), o = .netError msg → hfShouldRetry e = true) := by
  refine ⟨?_, ?_, ?_⟩
  · intro status data statusText ho
    subst ho
    by_cases h500 : status < 500
    · have hnone := hfInvokeResult_sub500_no_response status data statusText e h500 h
      simp [hfShouldRetry, hnone, h500]
    · simp only [hfInvokeResult, hfTryClassify, hfAxiosRespond, if_neg h500,
        Option.isSome_some, if_true] at h
      injection h with h'
      subst h'
      have h429 : status ≠ 429 := by omega
      have h408 : status ≠ 408 := by omega
      simp [hfShouldRetry, h429, h408, h500]
  · intro ho
    subst ho
    rw [show hfInvokeResult HttpOutcome.timeout =
      .error ⟨"Request timeout. The model is taking too long to respond.".toList,
        none, none⟩ from rfl] at h
    injection h with h'
    subst h'
    rfl
  · intro msg ho
    subst ho
    rw [show hfInvokeResult (HttpOutcome.netError msg) =
      .error ⟨"Network error: ".toList ++ msg, none, none⟩ from rfl] at h
    injection h with h'
    subst h'
    rfl

/-- Witness for `hfShouldRetry_characterization` at the concrete 410
transport: the produced error is retryable. -/
theorem hfShouldRetry_characterization_witness :
    hfShouldRetry
      ⟨"Network error: API endpoint deprecated. Please update the application.".toList,
        none, none⟩ = true := by
  have h := (hfShouldRetry_characterization (.response 410 .jnull "Gone".toList)
    ⟨"Network error: API endpoint deprecated. Please update the application.".toList,
      none, none⟩ rfl).1 410 .jnull "Gone".toList rfl
  rw [h]
  decide


/-- A split never returns an empty list of pieces. -/
theorem splitRunsGo_ne_nil (p : Char → Bool) :
    ∀ (cs acc : Str) (sep : Bool), splitRunsGo p cs acc sep ≠ [] := by
  intro cs
  induction cs with
  | nil => intro acc sep; simp [splitRunsGo]
  | cons c cs ih =>
    intro acc sep
    rw [splitRunsGo]
    by_cases hc : p c
    · rw [if_pos hc]
      cases sep <;> simp [ih]
    · rw [if_neg hc]
      exact ih _ _

/-- Pieces of a split contain no separator characters. -/
theorem splitRunsGo_no_sep (p : Char → Bool) :
    ∀ (cs acc : Str) (sep : Bool), (∀ c ∈ acc, p c = false) →
    ∀ w ∈ splitRunsGo p cs acc sep, ∀ c ∈ w, p c = false := by
  intro cs
  induction cs with
  | nil =>
    intro acc sep hacc w hw c hc
    simp [splitRunsGo] at hw
    subst hw
    exact hacc c (List.mem_reverse.mp hc)
  | cons d cs ih =>
    intro acc sep hacc w hw c hc
    rw [splitRunsGo] at hw
    by_cases hd : p d
    · rw [if_pos hd] at hw
      cases sep with
      | true => exact ih [] true (by simp) w hw c hc
      | false =>
        simp only [Bool.false_eq_true, if_false] at hw
        rcases List.mem_cons.mp hw with h | h
        · subst h
          exact hacc c (List.mem_reverse.mp hc)
        · exact ih [] true (by simp) w h c hc
    · rw [if_neg hd] at hw
      refine ih (d :: acc) false ?_ w hw c hc
      intro x hx
      rcases List.mem_cons.mp hx with h | h
      · subst h
        simpa using hd
      · exact hacc x h

/-- Pieces of `splitRuns` contain no separator characters. -/
theorem splitRuns_no_sep (p : Char → Bool) (s : Str) :
    ∀ w ∈ splitRuns p s, ∀ c ∈ w, p c = false :=
  splitRunsGo_no_sep p s [] false (by simp)

/-- Scanning separator-free characters only extends the current piece. -/
theorem splitRunsGo_clean_append (p : Char → Bool) :
    ∀ (w cs acc : Str), (∀ c ∈ w, p c = false) →
    splitRunsGo p (w ++ cs) acc false = splitRunsGo p cs (w.reverse ++ acc) false := by
  intro w
  induction w with
  | nil => intro cs acc _; simp
  | cons c w ih =>
    intro cs acc hw
    have hc : ¬ p c = true := by simp [hw c (by simp)]
    rw [List.cons_append, splitRunsGo, if_neg hc, ih _ _ (fun x hx => hw x (by simp [hx]))]
    simp

/-- After a separator, a non-separator head behaves as in piece mode. -/
theorem splitRunsGo_sep_head (p : Char → Bool) (c : Char) (cs acc : Str) (hc : p c = false) :
    splitRunsGo p (c :: cs) acc true = splitRunsGo p (c :: cs) acc false := by
  rw [splitRunsGo, splitRunsGo]
  simp [hc]

/-- Unfolding `intercalate` over a two-or-more element list. -/
theorem intercalate_cons₂ (j : Char) (w : Str) (x : Str) (t : List Str) :
    List.intercalate [j] (w :: x :: t) = w ++ j :: List.intercalate [j] (x :: t) := by
  simp [List.intercalate, List.intersperse]

/-- Splitting the `j`-join of nonempty separator-free words recovers exactly
the words. -/
theorem splitRuns_intercalate_go (p : Char → Bool) (j : Char) (hj : p j = true) :
    ∀ (ws : List Str) (w : Str), (∀ u ∈ w :: ws, u ≠ [] ∧ ∀ c ∈ u, p c = false) →
    ∀ acc : Str, splitRunsGo p (List.intercalate [j] (w :: ws)) acc false =
      (acc.reverse ++ w) :: ws := by
  intro ws
  induction ws with
  | nil =>
    intro w hws acc
    have hw := (hws w (by simp)).2
    rw [show List.intercalate [j] [w] = w from by simp [List.intercalate, List.intersperse]]
    rw [show w = w ++ [] from by simp, splitRunsGo_clean_append p w [] acc hw]
    simp [splitRunsGo]
  | cons x t ih =>
    intro w hws acc
    have hw := (hws w (by simp)).2
    rw [intercalate_cons₂, splitRunsGo_clean_append p w _ acc hw, splitRunsGo, if_pos hj]
    simp only [Bool.false_eq_true, if_false]
    obtain ⟨c, x', hx⟩ : ∃ c x', x = c :: x' := by
      rcases hxe : x with _ | ⟨c, x'⟩
      · exact absurd hxe (hws x (by simp)).1
      · exact ⟨c, x', rfl⟩
    have hc : p c = false := (hws x (by simp)).2 c (by simp [hx])
    have hsplit : splitRunsGo p (List.intercalate [j] (x :: t)) [] true =
        splitRunsGo p (List.intercalate [j] (x :: t)) [] false := by
      rcases t with _ | ⟨y, t'⟩
      · rw [show List.intercalate [j] [x] = x from by simp [List.intercalate, List.intersperse], hx]
        exact splitRunsGo_sep_head p c x' [] hc
      · rw [intercalate_cons₂, hx, List.cons_append]
        exact splitRunsGo_sep_head p c _ [] hc
    rw [hsplit, ih x (fun u hu => hws u (by simp [List.mem_cons.mp hu])) []]
    simp

/-- The top-level roundtrip: splitting the join of nonempty separator-free
words gives back the words. -/
theorem splitRuns_intercalate (p : Char → Bool) (j : Char) (hj : p j = true)
    (ws : List Str) (hne : ws ≠ [])
    (hws : ∀ u ∈ ws, u ≠ [] ∧ ∀ c ∈ u, p c = false) :
    splitRuns p (List.intercalate [j] ws) = ws := by
  rcases ws with _ | ⟨w, ws⟩
  · exact absurd rfl hne
  · rw [splitRuns, splitRuns_intercalate_go p j hj ws w hws []]
    simp

/-- The chunk loop does not depend on the exact fuel once it is sufficient. -/
theorem chunksOfGo_fuel {α : Type} (k : Nat) (hk : 0 < k) :
    ∀ (f1 f2 : Nat) (l : List α), l.length ≤ f1 → l.length ≤ f2 →
    chunksOfGo k f1 l = chunksOfGo k f2 l := by
  intro f1
  induction f1 with
  | zero =>
    intro f2 l h1 _
    have : l = [] := List.length_eq_zero.mp (by omega)
    subst this
    cases f2 <;> rfl
  | succ f ih =>
    intro f2 l h1 h2
    rcases l with _ | ⟨x, xs⟩
    · cases f2 <;> rfl
    · rcases f2 with _ | g
      · simp at h2
      · rw [chunksOfGo, chunksOfGo]
        have hd : ((x :: xs).drop k).length ≤ f := by
          simp only [List.length_drop, List.length_cons]
          simp only [List.length_cons] at h1
          omega
        have hd2 : ((x :: xs).drop k).length ≤ g := by
          simp only [List.length_drop, List.length_cons]
          simp only [List.length_cons] at h2
          omega
        rw [ih g _ hd hd2]

/-- Unfolding of `chunksOf` on a non-empty list. -/
theorem chunksOf_cons {α : Type} (k : Nat) (hk : 0 < k) (l : List α) (hl : l ≠ []) :
    chunksOf k l = l.take k :: chunksOf k (l.drop k) := by
  rcases l with _ | ⟨x, xs⟩
  · exact absurd rfl hl
  · rw [chunksOf, chunksOf, if_neg (by omega), if_neg (by omega)]
    rw [show (x :: xs).length = xs.length + 1 from rfl, chunksOfGo]
    congr 1
    exact chunksOfGo_fuel k hk xs.length _ _ (by simp; omega) (le_refl _)

/-- `chunksOf` of the empty list. -/
theorem chunksOf_nil {α : Type} (k : Nat) : chunksOf k ([] : List α) = [] := by
  rw [chunksOf]
  split <;> rfl

/-- The number of chunks is the ceiling of `length / k`. -/
theorem chunksOf_length {α : Type} (k : Nat) (hk : 0 < k) :
    ∀ (n : Nat) (l : List α), l.length ≤ n →
    (chunksOf k l).length = (l.length + k - 1) / k := by
  intro n
  induction n with
  | zero =>
    intro l h
    have : l = [] := List.length_eq_zero.mp (by omega)
    subst this
    rw [chunksOf_nil]
    simp only [List.length_nil, Nat.zero_add]
    rw [Nat.div_eq_of_lt (by omega)]
  | succ n ih =>
    intro l h
    rcases hl : l with _ | ⟨x, xs⟩
    · rw [chunksOf_nil]
      simp only [List.length_nil, Nat.zero_add]
      rw [Nat.div_eq_of_lt (by omega)]
    · rw [← hl]
      have hlen : 0 < l.length := by simp [hl]
      have hdrop : (l.drop k).length ≤ n := by
        simp only [List.length_drop]
        omega
      rw [chunksOf_cons k hk l (by simp [hl]), List.length_cons, ih (l.drop k) hdrop]
      simp only [List.length_drop]
      have hrhs : (l.length + k - 1) / k = (l.length - 1) / k + 1 := by
        rw [show l.length + k - 1 = (l.length - 1) + k from by omega, Nat.add_div_right _ hk]
      rw [hrhs]
      by_cases hle : l.length ≤ k
      · rw [Nat.sub_eq_zero_of_le hle]
        rw [Nat.div_eq_of_lt (show 0 + k - 1 < k from by omega),
          Nat.div_eq_of_lt (show l.length - 1 < k from by omega)]
      · rw [show l.length - k + k - 1 = l.length - 1 from by omega]

/-- Each chunk is nonempty, at most `k` long, and drawn from the list. -/
theorem chunksOf_mem {α : Type} (k : Nat) (hk : 0 < k) :
    ∀ (n : Nat) (l : List α), l.length ≤ n →
    ∀ c ∈ chunksOf k l, c ≠ [] ∧ c.length ≤ k ∧ ∀ x ∈ c, x ∈ l := by
  intro n
  induction n with
  | zero =>
    intro l h c hc
    have : l = [] := List.length_eq_zero.mp (by omega)
    subst this
    rw [chunksOf_nil] at hc
    cases hc
  | succ n ih =>
    intro l h c hc
    rcases hl : l with _ | ⟨x, xs⟩
    · subst hl
      rw [chunksOf_nil] at hc
      cases hc
    · rw [← hl]
      have hlen : 0 < l.length := by simp [hl]
      rw [chunksOf_cons k hk l (by simp [hl])] at hc
      rcases List.mem_cons.mp hc with hcase | hcase
      · subst hcase
        refine ⟨?_, by simp, fun y hy => List.mem_of_mem_take hy⟩
        intro htake
        have := congrArg List.length htake
        simp only [List.length_take, List.length_nil] at this
        omega
      · have hdrop : (l.drop k).length ≤ n := by
          simp only [List.length_drop]
          omega
        obtain ⟨h1, h2, h3⟩ := ih (l.drop k) hdrop c hcase
        exact ⟨h1, h2, fun y hy => List.mem_of_mem_drop (h3 y hy)⟩

/-- The length of the `i`-th chunk is `min k (length - i * k)`. -/
theorem chunksOf_getD_length {α : Type} (k : Nat) (hk : 0 < k) :
    ∀ (n : Nat) (l : List α), l.length ≤ n →
    ∀ i, i < (chunksOf k l).length →
    ((chunksOf k l).getD i []).length = min k (l.length - i * k) := by
  intro n
  induction n with
  | zero =>
    intro l h i hi
    have : l = [] := List.length_eq_zero.mp (by omega)
    subst this
    rw [chunksOf_nil] at hi
    cases hi
  | succ n ih =>
    intro l h i hi
    rcases hl : l with _ | ⟨x, xs⟩
    · subst hl
      rw [chunksOf_nil] at hi
      cases hi
    · rw [← hl]
      have hlen : 0 < l.length := by simp [hl]
      rw [chunksOf_cons k hk l (by simp [hl])] at hi ⊢
      rcases i with _ | i
      · simp only [List.getD_cons_zero, List.length_take]
        omega
      · simp only [List.getD_cons_succ]
        have hdrop : (l.drop k).length ≤ n := by
          simp only [List.length_drop]
          omega
        rw [List.length_cons] at hi
        rw [ih (l.drop k) hdrop i (by omega)]
        simp only [List.length_drop]
        rw [show l.length - k - i * k = l.length - (i + 1) * k from by
          rw [Nat.succ_mul]
          omega]

/-- A split always produces at least one piece. -/
theorem splitRuns_ne_nil (p : Char → Bool) (s : Str) : splitRuns p s ≠ [] :=
  splitRunsGo_ne_nil p s [] false

/-- `getD` of a mapped list inside its range. -/
theorem getD_map_of_lt {α β : Type} (f : α → β) (l : List α) (i : Nat) (hi : i < l.length)
    (d : α) (d' : β) : (l.map f).getD i d' = f (l.getD i d) := by
  rw [List.getD_eq_getElem?_getD, List.getD_eq_getElem?_getD, List.getElem?_map,
    List.getElem?_eq_getElem hi]
  rfl

/-- C6: `chunkText` splits a non-empty text (whose whitespace-split words
are all non-empty, as for any cleaned text) into exactly
`ceil(wordCount / wordsPerChunk)` chunks, each of at most `wordsPerChunk`
whitespace-separated words; a text of at most `wordsPerChunk` words comes
back as the single chunk equal to the whole text; every chunk except the
last has exactly `wordsPerChunk` words and the last has the remaining
`wordCount - wordsPerChunk * (chunkCount - 1)` words (so only the last can
be shorter).  The 4500-word/1000 and 800-word/1000 instances of the claim
are the corresponding numeric specializations. -/
theorem chunkText_spec (text : Str) (k : Nat) (hk : 0 < k)
    (htrim : jsTrim text ≠ []) (hwords : ∀ w ∈ splitRuns jsIsWs text, w ≠ []) :
    ∃ chunks, chunkText text k = .ok chunks ∧
      chunks.length = ((splitRuns jsIsWs text).length + k - 1) / k ∧
      (∀ c ∈ chunks, (splitRuns jsIsWs c).length ≤ k) ∧
      ((splitRuns jsIsWs text).length ≤ k → chunks = [text]) ∧
      (∀ i, i + 1 < chunks.length → (splitRuns jsIsWs (chunks.getD i [])).length = k) ∧
      (chunks ≠ [] → (splitRuns jsIsWs (chunks.getD (chunks.length - 1) [])).length =
        (splitRuns jsIsWs text).length - k * (chunks.length - 1)) := by
  have hwc1 : 0 < (splitRuns jsIsWs text).length :=
    List.length_pos.mpr (splitRuns_ne_nil jsIsWs text)
  have hempty : (jsTrim text).isEmpty = false := by
    cases he : (jsTrim text).isEmpty
    · rfl
    · exact absurd (List.isEmpty_iff.mp he) htrim
  by_cases hle : (splitRuns jsIsWs text).length ≤ k
  · refine ⟨[text], ?_, ?_, ?_, fun _ => rfl, ?_, ?_⟩
    · rw [chunkText, hempty]
      simp only [Bool.false_eq_true, if_false]
      rw [if_pos hle]
    · have : ((splitRuns jsIsWs text).length + k - 1) / k = 1 := by
        rw [show (splitRuns jsIsWs text).length + k - 1 =
          ((splitRuns jsIsWs text).length - 1) + k from by omega, Nat.add_div_right _ hk,
          Nat.div_eq_of_lt (by omega)]
      rw [this]
      rfl
    · intro c hc
      rw [List.mem_singleton.mp hc]
      exact hle
    · intro i hi
      simp at hi
    · intro _
      simp only [List.length_singleton, Nat.sub_self, List.getD_cons_zero, Nat.mul_zero,
        Nat.sub_zero]
  · push_neg at hle
    set words := splitRuns jsIsWs text with hwordsdef
    set pieces := chunksOf k words with hpieces
    have hroundtrip : ∀ piece ∈ pieces, splitRuns jsIsWs (List.intercalate [' '] piece) = piece := by
      intro piece hpiece
      obtain ⟨hne, _, hmem⟩ := chunksOf_mem k hk words.length words (le_refl _) piece hpiece
      refine splitRuns_intercalate jsIsWs ' ' (by decide) piece hne ?_
      intro u hu
      exact ⟨hwords u (hmem u hu), splitRuns_no_sep jsIsWs text u (hmem u hu)⟩
    have hchunks : chunkText text k = .ok (pieces.map (List.intercalate [' '])) := by
      rw [chunkText, hempty]
      simp only [Bool.false_eq_true, if_false]
      have hle2 : ¬ (splitRuns jsIsWs text).length ≤ k := by
        rw [← hwordsdef]
        omega
      rw [if_neg hle2]
    have hplen : pieces.length = (words.length + k - 1) / k :=
      chunksOf_length k hk words.length words (le_refl _)
    obtain ⟨r, hql, hr⟩ : ∃ r, k * pieces.length + r = words.length + k - 1 ∧ r < k := by
      refine ⟨(words.length + k - 1) % k, ?_, Nat.mod_lt _ hk⟩
      rw [hplen]
      exact Nat.div_add_mod _ _
    refine ⟨pieces.map (List.intercalate [' ']), hchunks, by simp [hplen], ?_, ?_, ?_, ?_⟩
    · intro c hc
      obtain ⟨piece, hpiece, rfl⟩ := List.mem_map.mp hc
      rw [hroundtrip piece hpiece]
      exact (chunksOf_mem k hk words.length words (le_refl _) piece hpiece).2.1
    · intro h
      have h2 : words.length ≤ k := h
      omega
    · intro i hi
      simp only [List.length_map] at hi
      have hilt : i < pieces.length := by omega
      rw [getD_map_of_lt _ pieces i hilt []]
      have hmem : pieces.getD i [] ∈ pieces := by
        rw [List.getD_eq_getElem?_getD, List.getElem?_eq_getElem hilt]
        exact List.getElem_mem _
      rw [hroundtrip _ hmem, chunksOf_getD_length k hk words.length words (le_refl _) i hilt]
      have hmul : k * (i + 2) ≤ k * pieces.length := Nat.mul_le_mul_left k (by omega)
      rw [Nat.mul_add] at hmul
      have hik : k * i = i * k := Nat.mul_comm _ _
      omega
    · intro hne
      simp only [List.length_map] at *
      have hq1 : 1 ≤ pieces.length := by
        rcases Nat.eq_zero_or_pos pieces.length with h0 | h1
        · rw [h0] at hql
          omega
        · exact h1
      have hilt : pieces.length - 1 < pieces.length := by omega
      rw [getD_map_of_lt _ pieces _ hilt []]
      have hmem : pieces.getD (pieces.length - 1) [] ∈ pieces := by
        rw [List.getD_eq_getElem?_getD, List.getElem?_eq_getElem hilt]
        exact List.getElem_mem _
      rw [hroundtrip _ hmem, chunksOf_getD_length k hk words.length words (le_refl _) _ hilt]
      have hmul : k * (pieces.length - 1) + k = k * pieces.length := by
        rw [← Nat.mul_succ]
        congr 1
        omega
      have hik : k * (pieces.length - 1) = (pieces.length - 1) * k := Nat.mul_comm _ _
      omega

/-- Witness for `chunkText_spec`: the five-word text "a b c d e" at
`wordsPerChunk = 2` gives chunks of 2, 2 and 1 words. -/
theorem chunkText_spec_witness :
    0 < 2 ∧ jsTrim "a b c d e".toList ≠ [] ∧
    (∀ w ∈ splitRuns jsIsWs "a b c d e".toList, w ≠ []) ∧
    ∃ chunks, chunkText "a b c d e".toList 2 = .ok chunks ∧
      chunks.length = ((splitRuns jsIsWs "a b c d e".toList).length + 2 - 1) / 2 ∧
      (∀ c ∈ chunks, (splitRuns jsIsWs c).length ≤ 2) ∧
      ((splitRuns jsIsWs "a b c d e".toList).length ≤ 2 → chunks = ["a b c d e".toList]) ∧
      (∀ i, i + 1 < chunks.length → (splitRuns jsIsWs (chunks.getD i [])).length = 2) ∧
      (chunks ≠ [] → (splitRuns jsIsWs (chunks.getD (chunks.length - 1) [])).length =
        (splitRuns jsIsWs "a b c d e".toList).length - 2 * (chunks.length - 1)) :=
  ⟨by decide, by decide, by decide,
    chunkText_spec "a b c d e".toList 2 (by decide) (by decide) (by decide)⟩

/-- A transport that always times out (one of the classified failure modes). -/
def envTimeoutW : Env := ⟨fun _ => .timeout, fun _ => 0⟩

/-- C10: for any text of fewer than 500 whitespace-split words,
`summarizeText` returns exactly the deterministic extractive summary
`createStructuredSummary (extractKeyInformation text)`, leaves the process
state untouched (no model candidate is attempted, no external call or clock
reading happens), and the result is identical under any two behaviours of
the external service. -/
theorem summarizeText_short_path (env1 env2 : Env) (text : Str) (st : PState)
    (htrim : jsTrim text ≠ []) (hwc : (splitRuns jsIsWs text).length < 500) :
    summarizeText env1 text st =
      (.ok (createStructuredSummary (extractKeyInformation text)), st) ∧
    summarizeText env1 text st = summarizeText env2 text st := by
  have hempty : (jsTrim text).isEmpty = false := by
    cases he : (jsTrim text).isEmpty
    · rfl
    · exact absurd (List.isEmpty_iff.mp he) htrim
  constructor
  · rw [summarizeText, hempty]
    simp only [Bool.false_eq_true, if_false]
    rw [if_pos hwc]
    rfl
  · rw [summarizeText, summarizeText, hempty]
    simp only [Bool.false_eq_true, if_false]
    rw [if_pos hwc, if_pos hwc]

/-- Witness for `summarizeText_short_path` at a 13-word text, under a
timeout transport and a 410 transport. -/
theorem summarizeText_short_path_witness :
    jsTrim "ab. cd. ef. gh. ij. kl. mn. op. qr. st. uv. wx. yz".toList ≠ [] ∧
    (splitRuns jsIsWs "ab. cd. ef. gh. ij. kl. mn. op. qr. st. uv. wx. yz".toList).length < 500 ∧
    (summarizeText envTimeoutW "ab. cd. ef. gh. ij. kl. mn. op. qr. st. uv. wx. yz".toList pst0 =
      (.ok (createStructuredSummary
        (extractKeyInformation "ab. cd. ef. gh. ij. kl. mn. op. qr. st. uv. wx. yz".toList)), pst0) ∧
    summarizeText envTimeoutW "ab. cd. ef. gh. ij. kl. mn. op. qr. st. uv. wx. yz".toList pst0 =
      summarizeText env410W "ab. cd. ef. gh. ij. kl. mn. op. qr. st. uv. wx. yz".toList pst0) :=
  ⟨by decide, by decide,
    summarizeText_short_path envTimeoutW env410W _ pst0 (by decide) (by decide)⟩

/-- Trimming never lengthens a string. -/
theorem jsTrim_length_le (s : Str) : (jsTrim s).length ≤ s.length := by
  rw [jsTrim]
  calc ((s.dropWhile jsIsWs).reverse.dropWhile jsIsWs).reverse.length
      = ((s.dropWhile jsIsWs).reverse.dropWhile jsIsWs).length := List.length_reverse _
    _ ≤ (s.dropWhile jsIsWs).reverse.length := (List.dropWhile_sublist _).length_le
    _ = (s.dropWhile jsIsWs).length := List.length_reverse _
    _ ≤ s.length := (List.dropWhile_sublist _).length_le

/-- C9: the minimum-quality step of `processDocument` replaces any summary
of trimmed length under the 100-character floor by the deterministic
composer output whenever that output is strictly longer; in particular a
40-character cascade summary is so replaced. -/
theorem ensureSummaryQuality_floor (text s : Str)
    (hshort : (jsTrim s).length < 100)
    (hlonger : s.length < (extractiveSummary text).length) :
    ensureSummaryQuality text s = extractiveSummary text ∧
    (∀ s' : Str, s'.length = 40 → s'.length < (extractiveSummary text).length →
      ensureSummaryQuality text s' = extractiveSummary text) := by
  constructor
  · rw [ensureSummaryQuality, if_pos (by simp [hshort]), if_pos hlonger]
  · intro s' hlen hlonger'
    have hshort' : (jsTrim s').length < 100 := by
      have := jsTrim_length_le s'
      omega
    rw [ensureSummaryQuality, if_pos (by simp [hshort']), if_pos hlonger']

/-- Witness for `ensureSummaryQuality_floor`: a 40-character summary for a
text whose composer output has 77 characters is replaced. -/
theorem ensureSummaryQuality_floor_witness :
    (jsTrim (List.replicate 40 'x')).length < 100 ∧
    (List.replicate 40 'x').length <
      (extractiveSummary "It is not discussed in the text. It is not discussed in the text.".toList).length ∧
    ensureSummaryQuality "It is not discussed in the text. It is not discussed in the text.".toList
      (List.replicate 40 'x') =
      extractiveSummary "It is not discussed in the text. It is not discussed in the text.".toList :=
  ⟨by decide, by decide,
    (ensureSummaryQuality_floor
      "It is not discussed in the text. It is not discussed in the text.".toList
      (List.replicate 40 'x') (by decide) (by decide)).1⟩

/-- Chunking a replicated list gives replicated full chunks. -/
theorem chunksOf_replicate {α : Type} (k : Nat) (hk : 0 < k) (w : α) :
    ∀ m : Nat, chunksOf k (List.replicate (m * k) w) = List.replicate m (List.replicate k w) := by
  intro m
  induction m with
  | zero => simp [chunksOf_nil]
  | succ m ih =>
    have hne : List.replicate ((m + 1) * k) w ≠ [] := by
      simp only [ne_eq, List.replicate_eq_nil_iff]
      positivity
    rw [chunksOf_cons k hk _ hne, List.take_replicate, List.drop_replicate]
    rw [show min k ((m + 1) * k) = k from by
      have : k ≤ (m + 1) * k := Nat.le_mul_of_pos_left k (by omega)
      omega]
    rw [show (m + 1) * k - k = m * k from by
      rw [Nat.succ_mul]
      omega]
    rw [ih, List.replicate_succ]

/-- A trim is empty exactly when every character is whitespace. -/
theorem jsTrim_eq_nil_iff (s : Str) : jsTrim s = [] ↔ ∀ c ∈ s, jsIsWs c := by
  rw [jsTrim]
  rw [List.reverse_eq_nil_iff, List.dropWhile_eq_nil_iff]
  constructor
  · intro h c hc
    by_cases hmem : c ∈ s.dropWhile jsIsWs
    · exact h c (List.mem_reverse.mpr hmem)
    · have hsplit := List.takeWhile_append_dropWhile (p := jsIsWs) (l := s)
      rw [← hsplit] at hc
      rcases List.mem_append.mp hc with h1 | h1
      · exact List.mem_takeWhile_imp h1
      · exact absurd h1 hmem
  · intro h c hc
    exact h c ((List.dropWhile_sublist _).subset (List.mem_reverse.mp hc))

/-- The identical-content chunk of the C8 counterexample: 1000 copies of the
word "a". -/
def dupChunkW : Str := List.intercalate [' '] (List.replicate 1000 (['a'] : Str))

/-- The C8 counterexample text: 4000 copies of the word "a". -/
def dupTextW : Str := List.intercalate [' '] (List.replicate 4000 (['a'] : Str))

/-- Splitting the counterexample text recovers its 4000 words. -/
theorem dupTextW_split : splitRuns jsIsWs dupTextW = List.replicate 4000 (['a'] : Str) := by
  refine splitRuns_intercalate jsIsWs ' ' (by decide) _
    (by simp only [ne_eq, List.replicate_eq_nil_iff]; omega) ?_
  intro u hu
  rw [List.eq_of_mem_replicate hu]
  exact ⟨by simp, by decide⟩

/-- The counterexample chunk starts with the letter a. -/
theorem dupChunkW_head : ∃ t, dupChunkW = 'a' :: t := by
  rw [dupChunkW, show List.replicate 1000 (['a'] : Str) = ['a'] :: List.replicate 999 ['a'] from rfl,
    show List.replicate 999 (['a'] : Str) = ['a'] :: List.replicate 998 ['a'] from rfl,
    intercalate_cons₂]
  exact ⟨_, rfl⟩

/-- The counterexample text starts with the letter a. -/
theorem dupTextW_head : ∃ t, dupTextW = 'a' :: t := by
  rw [dupTextW, show List.replicate 4000 (['a'] : Str) = ['a'] :: List.replicate 3999 ['a'] from rfl,
    show List.replicate 3999 (['a'] : Str) = ['a'] :: List.replicate 3998 ['a'] from rfl,
    intercalate_cons₂]
  exact ⟨_, rfl⟩

/-- The counterexample text is not whitespace-only. -/
theorem dupTextW_trim : jsTrim dupTextW ≠ [] := by
  obtain ⟨t, ht⟩ := dupTextW_head
  rw [ht, Ne, jsTrim_eq_nil_iff]
  intro h
  have := h 'a' (by simp)
  simp [jsIsWs] at this

/-- C8 counterexample: for 4000 identical words chunked at 1000, the three
selected priority chunks are one and the same string, so the list of
priority chunks summarized contains the same chunk three times (no
deduplication happens). -/
theorem priorityChunks_duplicate_counterexample :
    3000 < (splitRuns jsIsWs dupTextW).length ∧
    chunkText dupTextW 1000 = .ok (List.replicate 4 dupChunkW) ∧
    priorityChunksOf (List.replicate 4 dupChunkW) = [dupChunkW, dupChunkW, dupChunkW] ∧
    ¬ (priorityChunksOf (List.replicate 4 dupChunkW)).Nodup := by
  have hsplit := dupTextW_split
  have hlen : (splitRuns jsIsWs dupTextW).length = 4000 := by
    rw [hsplit, List.length_replicate]
  obtain ⟨tc, htc⟩ := dupChunkW_head
  have hprio : priorityChunksOf (List.replicate 4 dupChunkW) =
      [dupChunkW, dupChunkW, dupChunkW] := by
    show priorityChunksOf [dupChunkW, dupChunkW, dupChunkW, dupChunkW] = _
    rw [priorityChunksOf]
    simp only [List.length_cons, List.length_nil]
    rw [htc]
    rfl
  refine ⟨by omega, ?_, hprio, ?_⟩
  · have hempty : (jsTrim dupTextW).isEmpty = false := by
      cases he : (jsTrim dupTextW).isEmpty
      · rfl
      · exact absurd (List.isEmpty_iff.mp he) dupTextW_trim
    rw [chunkText, hempty]
    simp only [Bool.false_eq_true, if_false]
    rw [if_neg (by omega), hsplit,
      show (4000 : Nat) = 4 * 1000 from rfl, chunksOf_replicate 1000 (by omega) _ 4,
      List.map_replicate]
    rfl
  · rw [hprio]
    intro h
    exact (List.nodup_cons.mp h).1 (by simp)

/-- The join of a chunk of nonempty words is nonempty. -/
theorem intercalate_piece_ne_nil (piece : List Str) (hne : piece ≠ [])
    (hws : ∀ u ∈ piece, u ≠ []) : List.intercalate [' '] piece ≠ [] := by
  rcases piece with _ | ⟨w, rest⟩
  · exact absurd rfl hne
  · rcases rest with _ | ⟨x, t⟩
    · rw [show List.intercalate [' '] [w] = w from by simp [List.intercalate, List.intersperse]]
      exact hws w (by simp)
    · rw [intercalate_cons₂]
      rcases hw : w with _ | ⟨c, w'⟩
      · exact absurd hw (hws w (by simp))
      · simp

/-- Characters of split pieces come from the scanned text or the
accumulator. -/
theorem splitRunsGo_chars (p : Char → Bool) :
    ∀ (cs acc : Str) (sep : Bool) (w : Str) (c : Char),
    w ∈ splitRunsGo p cs acc sep → c ∈ w → c ∈ cs ∨ c ∈ acc := by
  intro cs
  induction cs with
  | nil =>
    intro acc sep w c hw hc
    simp [splitRunsGo] at hw
    subst hw
    exact Or.inr (List.mem_reverse.mp hc)
  | cons d cs ih =>
    intro acc sep w c hw hc
    rw [splitRunsGo] at hw
    by_cases hd : p d
    · rw [if_pos hd] at hw
      cases sep with
      | true =>
        rcases ih [] true w c hw hc with h | h
        · exact Or.inl (by simp [h])
        · cases h
      | false =>
        simp only [Bool.false_eq_true, if_false] at hw
        rcases List.mem_cons.mp hw with h | h
        · subst h
          exact Or.inr (List.mem_reverse.mp hc)
        · rcases ih [] true w c h hc with h2 | h2
          · exact Or.inl (by simp [h2])
          · cases h2
    · rw [if_neg hd] at hw
      rcases ih (d :: acc) false w c hw hc with h | h
      · exact Or.inl (by simp [h])
      · rcases List.mem_cons.mp h with h2 | h2
        · exact Or.inl (by simp [h2])
        · exact Or.inr h2

/-- Characters of `splitRuns` pieces come from the original string. -/
theorem splitRuns_chars (p : Char → Bool) (s : Str) (w : Str) (c : Char)
    (hw : w ∈ splitRuns p s) (hc : c ∈ w) : c ∈ s := by
  rcases splitRunsGo_chars p s [] false w c hw hc with h | h
  · exact h
  · cases h

/-- C8 amended: on the chunked path (over 3000 words, 1000 words per chunk)
the selected priority chunks are exactly the entries at indices 0,
half the chunk count rounded down, and the last index, in that order, with
nothing dropped by the truthiness filter and no deduplication; the chunk
count is at least 4, so the three indices are pairwise distinct — but the
selected chunks can still be equal as strings (see the
4000-identical-words counterexample), so the same chunk content may be
summarized more than once. -/
theorem priorityChunks_selection (text : Str)
    (hwords : ∀ w ∈ splitRuns jsIsWs text, w ≠ [])
    (hlong : 3000 < (splitRuns jsIsWs text).length) :
    ∃ chunks, chunkText text 1000 = .ok chunks ∧
      4 ≤ chunks.length ∧
      0 < chunks.length / 2 ∧ chunks.length / 2 < chunks.length - 1 ∧
      priorityChunksOf chunks =
        [chunks.getD 0 [], chunks.getD (chunks.length / 2) [],
          chunks.getD (chunks.length - 1) []] := by
  set words := splitRuns jsIsWs text with hwdef
  have htrim : jsTrim text ≠ [] := by
    rw [Ne, jsTrim_eq_nil_iff]
    intro hall
    obtain ⟨w, hw⟩ : ∃ w, w ∈ words := by
      rcases hwe : words with _ | ⟨w, t⟩
      · rw [hwe] at hlong
        simp at hlong
      · exact ⟨w, by simp [hwe]⟩
    obtain ⟨c, hc⟩ : ∃ c, c ∈ w := by
      rcases hce : w with _ | ⟨c, t⟩
      · exact absurd hce (hwords w hw)
      · exact ⟨c, by simp [hce]⟩
    have h1 : jsIsWs c = false := splitRuns_no_sep jsIsWs text w hw c hc
    have h2 : jsIsWs c = true := hall c (splitRuns_chars jsIsWs text w c hw hc)
    rw [h1] at h2
    cases h2
  have hempty : (jsTrim text).isEmpty = false := by
    cases he : (jsTrim text).isEmpty
    · rfl
    · exact absurd (List.isEmpty_iff.mp he) htrim
  set pieces := chunksOf 1000 words with hpieces
  set chunks := pieces.map (List.intercalate [' ']) with hchunksdef
  have hchunks : chunkText text 1000 = .ok chunks := by
    rw [chunkText, hempty]
    simp only [Bool.false_eq_true, if_false]
    have hle2 : ¬ (splitRuns jsIsWs text).length ≤ 1000 := by
      rw [← hwdef]
      omega
    rw [if_neg hle2]
  have hplen : pieces.length = (words.length + 1000 - 1) / 1000 :=
    chunksOf_length 1000 (by omega) words.length words (le_refl _)
  have hclen : chunks.length = pieces.length := List.length_map _ _
  have hlen4 : 4 ≤ chunks.length := by
    rw [hclen, hplen]
    omega
  have hne : ∀ c ∈ chunks, c ≠ [] := by
    intro c hc
    obtain ⟨piece, hpiece, rfl⟩ := List.mem_map.mp hc
    obtain ⟨h1, _, h3⟩ := chunksOf_mem 1000 (by omega) words.length words (le_refl _) piece hpiece
    exact intercalate_piece_ne_nil piece h1 (fun u hu => hwords u (h3 u hu))
  have hgetD : ∀ i, i < chunks.length → chunks.get? i = some (chunks.getD i []) := by
    intro i hi
    rw [List.get?_eq_getElem?, List.getElem?_eq_getElem hi, List.getD_eq_getElem?_getD,
      List.getElem?_eq_getElem hi]
    rfl
  have hmemD : ∀ i, i < chunks.length → chunks.getD i [] ∈ chunks := by
    intro i hi
    rw [List.getD_eq_getElem?_getD, List.getElem?_eq_getElem hi]
    exact List.getElem_mem _
  refine ⟨chunks, hchunks, hlen4, by omega, by omega, ?_⟩
  rw [priorityChunksOf, hgetD 0 (by omega), hgetD (chunks.length / 2) (by omega),
    hgetD (chunks.length - 1) (by omega)]
  simp only [List.filterMap_cons, id]
  rw [List.filter_cons, List.filter_cons, List.filter_cons]
  have e0 : (chunks.getD 0 []).isEmpty = false := by
    cases he : (chunks.getD 0 []).isEmpty
    · rfl
    · exact absurd (List.isEmpty_iff.mp he) (hne _ (hmemD 0 (by omega)))
  have e1 : (chunks.getD (chunks.length / 2) []).isEmpty = false := by
    cases he : (chunks.getD (chunks.length / 2) []).isEmpty
    · rfl
    · exact absurd (List.isEmpty_iff.mp he) (hne _ (hmemD _ (by omega)))
  have e2 : (chunks.getD (chunks.length - 1) []).isEmpty = false := by
    cases he : (chunks.getD (chunks.length - 1) []).isEmpty
    · rfl
    · exact absurd (List.isEmpty_iff.mp he) (hne _ (hmemD _ (by omega)))
  rw [e0, e1, e2]
  rfl

/-- Witness for `priorityChunks_selection` at the 4000-identical-word text. -/
theorem priorityChunks_selection_witness :
    (∀ w ∈ splitRuns jsIsWs dupTextW, w ≠ []) ∧
    3000 < (splitRuns jsIsWs dupTextW).length ∧
    ∃ chunks, chunkText dupTextW 1000 = .ok chunks ∧
      4 ≤ chunks.length ∧
      0 < chunks.length / 2 ∧ chunks.length / 2 < chunks.length - 1 ∧
      priorityChunksOf chunks =
        [chunks.getD 0 [], chunks.getD (chunks.length / 2) [],
          chunks.getD (chunks.length - 1) []] := by
  have hw : ∀ w ∈ splitRuns jsIsWs dupTextW, w ≠ [] := by
    rw [dupTextW_split]
    intro w hw
    rw [List.eq_of_mem_replicate hw]
    simp
  have hl : 3000 < (splitRuns jsIsWs dupTextW).length := by
    rw [dupTextW_split, List.length_replicate]
    omega
  exact ⟨hw, hl, priorityChunks_selection dupTextW hw hl⟩

/-- A transport outcome of one of the classified failure modes: an error
status (loading 503, rate-limited 429, deprecated 410, generic 4xx, server
5xx), a payload-level error, a timeout, or a network failure. -/
def FailOutcome : HttpOutcome → Prop
  | .response status data _ =>
    400 ≤ status ∨ ∃ v, data.field "error".toList = some v ∧ v.truthy = true
  | .timeout => True
  | .netError _ => True

/-- An environment in which every external call fails in a classified way. -/
def AllFail (env : Env) : Prop :=
  ∀ n, FailOutcome (env.http n)

/-- A failing outcome classifies to an error. -/
theorem hfInvokeResult_fail (o : HttpOutcome) (hf : FailOutcome o) :
    ∃ e, hfInvokeResult o = .error e := by
  have htc : ∃ e, hfTryClassify o = .error e := by
    rcases o with ⟨status, data, statusText⟩ | _ | msg
    · by_cases h500 : status < 500
      · by_cases h503 : status = 503
        · exact ⟨⟨"Model is loading. Please wait a moment and try again.".toList, none, none⟩,
            by simp only [hfTryClassify, hfAxiosRespond, if_pos h500, if_pos h503]⟩
        · by_cases h429 : status = 429
          · exact ⟨⟨"Rate limit exceeded. Please try again later.".toList, none, none⟩,
              by simp only [hfTryClassify, hfAxiosRespond, if_pos h500, if_neg h503,
                if_pos h429]⟩
          · by_cases h410 : status = 410
            · exact ⟨⟨"API endpoint deprecated. Please update the application.".toList,
                none, none⟩,
                by simp only [hfTryClassify, hfAxiosRespond, if_pos h500, if_neg h503,
                  if_neg h429, if_pos h410]⟩
            · by_cases h400 : 400 ≤ status
              · exact ⟨⟨"API error: ".toList ++ (Nat.repr status).toList ++ " - ".toList ++
                  statusText, none, none⟩,
                  by simp only [hfTryClassify, hfAxiosRespond, if_pos h500, if_neg h503,
                    if_neg h429, if_neg h410, if_pos h400]⟩
              · rcases hf with h | ⟨v, hv, hvt⟩
                · omega
                · exact ⟨⟨v.asMessage, none, none⟩,
                    by simp only [hfTryClassify, hfAxiosRespond, if_pos h500, if_neg h503,
                      if_neg h429, if_neg h410, if_neg h400, hv, if_pos hvt]⟩
      · exact ⟨⟨"Request failed with status code ".toList ++ (Nat.repr status).toList,
          some status, some "ERR_BAD_RESPONSE".toList⟩,
          by simp only [hfTryClassify, hfAxiosRespond, if_neg h500]⟩
    · exact ⟨⟨"timeout of 120000ms exceeded".toList, none, some "ECONNABORTED".toList⟩, rfl⟩
    · exact ⟨⟨msg, none, none⟩, rfl⟩
  obtain ⟨e, he⟩ := htc
  rw [hfInvokeResult, he]
  by_cases h1 : e.responseStatus.isSome = true
  · exact ⟨e, by simp only [if_pos h1]⟩
  · by_cases h2 : e.code = some "ECONNABORTED".toList
    · exact ⟨⟨"Request timeout. The model is taking too long to respond.".toList, none, none⟩,
        by simp only [if_neg h1, Bool.false_eq_true, if_false, if_pos h2]⟩
    · exact ⟨⟨"Network error: ".toList ++ e.message, none, none⟩,
        by simp only [if_neg h1, Bool.false_eq_true, if_false, if_neg h2]⟩

/-- One failing step of the retry loop with retries left. -/
theorem retryOnConditionGo_succ_err {σ E A : Type} (fn : σ → Except E A × σ)
    (p : σ → E → Bool × σ) (left : Nat) (s s' s'' : σ) (e : E) (b : Bool)
    (h : fn s = (.error e, s')) (hp : p s' e = (b, s'')) :
    retryOnConditionGo fn p (left + 1) s =
      (if b then retryOnConditionGo fn p left s'' else (.error e, s'')) := by
  rw [retryOnConditionGo, h]
  show (match p s' e with
    | (true, t) => retryOnConditionGo fn p left t
    | (false, t) => (Except.error e, t)) = _
  rw [hp]
  cases b <;> rfl

/-- The conditional retry of an operation that always fails fails. -/
theorem retryOnConditionGo_fail {σ E A : Type} (fn : σ → Except E A × σ)
    (p : σ → E → Bool × σ) (hfn : ∀ s, ∃ e s', fn s = (.error e, s')) :
    ∀ (left : Nat) (s : σ), ∃ e s', retryOnConditionGo fn p left s = (.error e, s') := by
  intro left
  induction left with
  | zero =>
    intro s
    obtain ⟨e, s', h⟩ := hfn s
    exact ⟨e, s', by rw [retryOnConditionGo, h]⟩
  | succ left ih =>
    intro s
    obtain ⟨e, s', h⟩ := hfn s
    rcases hp : p s' e with ⟨b, s''⟩
    cases b
    · exact ⟨e, s'', by rw [retryOnConditionGo_succ_err fn p left s s' s'' e false h hp, if_neg
        (by simp)]⟩
    · obtain ⟨e2, s2, h2⟩ := ih s''
      exact ⟨e2, s2, by rw [retryOnConditionGo_succ_err fn p left s s' s'' e true h hp,
        if_pos rfl, h2]⟩

/-- Unfolding of `cbExecute` on a non-open breaker. -/
theorem cbExecute_not_open {α : Type} (env : Env) (op : PState → Except JSError α × PState)
    (st : PState) (h : st.breaker.state ≠ CBStatus.opened) :
    cbExecute env op st =
      match op st with
      | (.ok a, st') => (.ok a, cbOnSuccess st')
      | (.error e, st') => (.error e, cbOnFailure env st') := by
  rw [cbExecute, if_neg h]

/-- Unfolding of `cbExecute` on an open breaker probed before `nextAttempt`. -/
theorem cbExecute_open_fast {α : Type} (env : Env) (op : PState → Except JSError α × PState)
    (st : PState) (h : st.breaker.state = CBStatus.opened)
    (ht : env.time st.ticks < st.breaker.nextAttempt) :
    cbExecute env op st = (.error circuitOpenError, { st with ticks := st.ticks + 1 }) := by
  simp only [cbExecute, if_pos h]
  rw [if_pos ht]

/-- Unfolding of `cbExecute` on an open breaker probed at or after
`nextAttempt`. -/
theorem cbExecute_open_probe {α : Type} (env : Env) (op : PState → Except JSError α × PState)
    (st : PState) (h : st.breaker.state = CBStatus.opened)
    (ht : ¬ env.time st.ticks < st.breaker.nextAttempt) :
    cbExecute env op st =
      match op { st with
        ticks := st.ticks + 1
        breaker := { st.breaker with state := .halfOpen } } with
      | (.ok a, st') => (.ok a, cbOnSuccess st')
      | (.error e, st') => (.error e, cbOnFailure env st') := by
  simp only [cbExecute, if_pos h]
  rw [if_neg ht]

/-- The circuit breaker around an operation that always fails fails (either
fast, while open, or by running the operation). -/
theorem cbExecute_fail {α : Type} (env : Env) (op : PState → Except JSError α × PState)
    (hop : ∀ s, ∃ e s', op s = (.error e, s')) (st : PState) :
    ∃ e st', cbExecute env op st = (.error e, st') := by
  by_cases hopen : st.breaker.state = CBStatus.opened
  · by_cases htime : env.time st.ticks < st.breaker.nextAttempt
    · exact ⟨circuitOpenError, _, cbExecute_open_fast env op st hopen htime⟩
    · rw [cbExecute_open_probe env op st hopen htime]
      obtain ⟨e, s', h⟩ := hop { st with
        ticks := st.ticks + 1
        breaker := { st.breaker with state := .halfOpen } }
      rw [h]
      exact ⟨e, cbOnFailure env s', rfl⟩
  · rw [cbExecute_not_open env op st hopen]
    obtain ⟨e, s', h⟩ := hop st
    rw [h]
    exact ⟨e, cbOnFailure env s', rfl⟩

/-- Under an all-failing transport, `callHuggingFace` always reports an
error (never a payload). -/
theorem callHuggingFace_fail (env : Env) (hfail : AllFail env) (model inputs : Str)
    (st : PState) : ∃ e st', callHuggingFace env model inputs st = (.error e, st') := by
  rw [callHuggingFace]
  refine cbExecute_fail env _ ?_ st
  intro s
  refine retryOnConditionGo_fail _ _ ?_ 3 s
  intro s'
  obtain ⟨e, he⟩ := hfInvokeResult_fail (env.http s'.calls) (hfail s'.calls)
  exact ⟨e, _, by rw [hfInvokeOnce, he]⟩

/-- Under an all-failing transport the summarization cascade falls through
every candidate and returns the extractive fallback. -/
theorem summarizeLoop_fail (env : Env) (hfail : AllFail env) (text : Str) :
    ∀ (models : List Str) (st : PState),
    ∃ st', summarizeLoop env text models st = (.ok (extractiveSummary text), st') := by
  intro models
  induction models with
  | nil => intro st; exact ⟨st, rfl⟩
  | cons model rest ih =>
    intro st
    obtain ⟨e, st1, hc⟩ := callHuggingFace_fail env hfail model (mkSummaryPrompt model text) st
    by_cases hlast : model = "sshleifer/distilbart-cnn-12-6".toList
    · refine ⟨st1, ?_⟩
      rw [summarizeLoop, hc]
      show (if model = "sshleifer/distilbart-cnn-12-6".toList then
        (Except.ok (extractiveSummary text), st1)
        else summarizeLoop env text rest st1) = _
      rw [if_pos hlast]
    · obtain ⟨st2, h2⟩ := ih st1
      refine ⟨st2, ?_⟩
      rw [summarizeLoop, hc]
      show (if model = "sshleifer/distilbart-cnn-12-6".toList then
        (Except.ok (extractiveSummary text), st1)
        else summarizeLoop env text rest st1) = _
      rw [if_neg hlast, h2]

/-- Under an all-failing transport the MCQ cascade falls through every
candidate and returns the deterministic fallback. -/
theorem mcqLoop_fail (env : Env) (hfail : AllFail env)
    (jsonParse : Str → Option JsonVal) (text : Str) :
    ∀ (models : List Str) (st : PState),
    ∃ st', mcqLoop env jsonParse text models st =
      (.ok (generateIntelligentMCQs text), st') := by
  intro models
  induction models with
  | nil => intro st; exact ⟨st, rfl⟩
  | cons model rest ih =>
    intro st
    obtain ⟨e, st1, hc⟩ := callHuggingFace_fail env hfail model (mkMCQPrompt text) st
    obtain ⟨st2, h2⟩ := ih st1
    refine ⟨st2, ?_⟩
    rw [mcqLoop, hc]
    show mcqLoop env jsonParse text rest st1 = _
    rw [h2]

/-- Under an all-failing transport `summarizeText` on a non-whitespace text
returns the extractive summary. -/
theorem summarizeText_fail (env : Env) (hfail : AllFail env) (text : Str) (st : PState)
    (htrim : jsTrim text ≠ []) :
    ∃ st', summarizeText env text st = (.ok (extractiveSummary text), st') := by
  have hempty : (jsTrim text).isEmpty = false := by
    cases he : (jsTrim text).isEmpty
    · rfl
    · exact absurd (List.isEmpty_iff.mp he) htrim
  rw [summarizeText, hempty]
  simp only [Bool.false_eq_true, if_false]
  by_cases hwc : (splitRuns jsIsWs text).length < 500
  · rw [if_pos hwc]
    exact ⟨st, rfl⟩
  · rw [if_neg hwc]
    exact summarizeLoop_fail env hfail text summaryModels st

/-- Under an all-failing transport `generateMCQs` on a non-whitespace text
returns the deterministic fallback. -/
theorem generateMCQs_fail (env : Env) (hfail : AllFail env)
    (jsonParse : Str → Option JsonVal) (text : Str) (st : PState)
    (htrim : jsTrim text ≠ []) :
    ∃ st', generateMCQs env jsonParse text st =
      (.ok (generateIntelligentMCQs text), st') := by
  have hempty : (jsTrim text).isEmpty = false := by
    cases he : (jsTrim text).isEmpty
    · rfl
    · exact absurd (List.isEmpty_iff.mp he) htrim
  rw [generateMCQs, hempty]
  simp only [Bool.false_eq_true, if_false]
  exact mcqLoop_fail env hfail jsonParse text mcqModels st

/-- The head surviving a `dropWhile` fails the predicate. -/
theorem dropWhile_head_false (p : Char → Bool) :
    ∀ (l : Str) (c : Char) (t : Str), l.dropWhile p = c :: t → p c = false := by
  intro l
  induction l with
  | nil => intro c t h; cases h
  | cons d l ih =>
    intro c t h
    by_cases hd : p d
    · rw [List.dropWhile_cons_of_pos hd] at h
      exact ih c t h
    · rw [List.dropWhile_cons_of_neg hd] at h
      cases h
      simpa using hd

/-- The first character of a non-empty trim is not whitespace. -/
theorem jsTrim_head (s : Str) (c : Char) (t : Str) (h : jsTrim s = c :: t) :
    jsIsWs c = false := by
  rw [jsTrim] at h
  obtain ⟨w, hw⟩ : ∃ w, w ++ ((s.dropWhile jsIsWs).reverse.dropWhile jsIsWs) =
      (s.dropWhile jsIsWs).reverse := (List.dropWhile_suffix jsIsWs)
  have hu : s.dropWhile jsIsWs =
      ((s.dropWhile jsIsWs).reverse.dropWhile jsIsWs).reverse ++ w.reverse := by
    have := congrArg List.reverse hw
    rw [List.reverse_append, List.reverse_reverse] at this
    exact this.symm
  rw [h] at hu
  exact dropWhile_head_false jsIsWs s c _ (by rw [hu, List.cons_append])

/-- The last character of a non-empty trim is not whitespace. -/
theorem jsTrim_rev_head (s : Str) (d : Char) (t : Str) (h : (jsTrim s).reverse = d :: t) :
    jsIsWs d = false := by
  rw [jsTrim, List.reverse_reverse] at h
  exact dropWhile_head_false jsIsWs _ d _ h

/-- A non-empty trim contains a non-whitespace character. -/
theorem jsTrim_has_non_ws (s : Str) (h : jsTrim s ≠ []) :
    ∃ c ∈ jsTrim s, jsIsWs c = false := by
  rcases he : jsTrim s with _ | ⟨c, t⟩
  · exact absurd he h
  · exact ⟨c, by simp, jsTrim_head s c t he⟩

/-- Unfolding `intercalate` with an arbitrary separator over a two-or-more
element list. -/
theorem intercalate_cons₂' (sep : Str) (w x : Str) (t : List Str) :
    List.intercalate sep (w :: x :: t) = w ++ sep ++ List.intercalate sep (x :: t) := by
  simp [List.intercalate, List.intersperse]

/-- The first element heads the join. -/
theorem intercalate_head (sep : Str) (s : Str) (rest : List Str) :
    ∃ t, List.intercalate sep (s :: rest) = s ++ t := by
  rcases rest with _ | ⟨x, r⟩
  · exact ⟨[], by simp [List.intercalate, List.intersperse]⟩
  · rw [intercalate_cons₂']
    exact ⟨sep ++ List.intercalate sep (x :: r), by simp⟩

/-- Unfolding of the section loop when the chunk summary succeeds. -/
theorem sectionSummariesOf_cons_ok (env : Env) (chunk : Str) (rest : List Str)
    (st st1 : PState) (S : Str) (h : summarizeText env chunk st = (.ok S, st1)) :
    (sectionSummariesOf env (chunk :: rest) st).1 =
      if !S.isEmpty && decide (50 < S.length) then
        S :: (sectionSummariesOf env rest st1).1
      else (sectionSummariesOf env rest st1).1 := by
  rw [sectionSummariesOf, h]

/-- Unfolding of the section loop when the chunk summary throws. -/
theorem sectionSummariesOf_cons_err (env : Env) (chunk : Str) (rest : List Str)
    (st st1 : PState) (e : JSError) (h : summarizeText env chunk st = (.error e, st1)) :
    sectionSummariesOf env (chunk :: rest) st = sectionSummariesOf env rest st1 := by
  rw [sectionSummariesOf, h]

set_option maxHeartbeats 2000000 in
/-- Every kept section summary under an all-failing transport is an
extractive summary of some chunk, longer than 50 characters and non-empty. -/
theorem sectionSummariesOf_fail (env : Env) (hfail : AllFail env) :
    ∀ (chunks : List Str) (st : PState) (s : Str),
    s ∈ (sectionSummariesOf env chunks st).1 →
    (∃ c, s = extractiveSummary c) ∧ 50 < s.length ∧ s ≠ [] := by
  intro chunks
  induction chunks with
  | nil => intro st s hs; cases hs
  | cons chunk rest ih =>
    intro st s hs
    by_cases htrimc : jsTrim chunk = []
    · have hemp : (jsTrim chunk).isEmpty = true := by rw [htrimc]; rfl
      rw [sectionSummariesOf_cons_err env chunk rest st st
          ⟨"Text is empty or invalid".toList, none, none⟩ (by rw [summarizeText, hemp]; rfl)] at hs
      exact ih st s hs
    · obtain ⟨st1, h1⟩ := summarizeText_fail env hfail chunk st htrimc
      rw [sectionSummariesOf_cons_ok env chunk rest st st1 (extractiveSummary chunk) h1] at hs
      by_cases hcond : (!(extractiveSummary chunk).isEmpty &&
          decide (50 < (extractiveSummary chunk).length)) = true
      · rw [if_pos hcond] at hs
        rcases List.mem_cons.mp hs with h | h
        · subst h
          simp only [Bool.and_eq_true, Bool.not_eq_true', decide_eq_true_eq] at hcond
          refine ⟨⟨chunk, rfl⟩, hcond.2, ?_⟩
          intro hnil
          rw [hnil] at hcond
          simp at hcond
        · exact ih st1 s h
      · rw [if_neg hcond] at hs
        exact ih st1 s hs

/-- `chunkText` succeeds on any non-whitespace text. -/
theorem chunkText_ok (text : Str) (k : Nat) (htrim : jsTrim text ≠ []) :
    ∃ chunks, chunkText text k = .ok chunks := by
  have hempty : (jsTrim text).isEmpty = false := by
    cases he : (jsTrim text).isEmpty
    · rfl
    · exact absurd (List.isEmpty_iff.mp he) htrim
  rw [chunkText, hempty]
  simp only [Bool.false_eq_true, if_false]
  by_cases hle : (splitRuns jsIsWs text).length ≤ k
  · rw [if_pos hle]
    exact ⟨_, rfl⟩
  · rw [if_neg hle]
    exact ⟨_, rfl⟩

/-- Under an all-failing transport the summary stage of `processDocument`
always succeeds on a trimmed non-empty text. -/
theorem summarizePath_fail (env : Env) (hfail : AllFail env) (text : Str) (st : PState)
    (htrim : jsTrim text = text) (hne : text ≠ []) :
    ∃ S st', summarizePath env text st = (.ok S, st') := by
  have htrim0 : jsTrim text ≠ [] := by rw [htrim]; exact hne
  obtain ⟨c, t, hct⟩ : ∃ c t, text = c :: t := by
    rcases hx : text with _ | ⟨c, t⟩
    · exact absurd hx hne
    · exact ⟨c, t, rfl⟩
  have hcnws : jsIsWs c = false := jsTrim_head text c t (by rw [htrim, hct])
  rw [summarizePath]
  by_cases hwc : 3000 < (splitRuns jsIsWs text).length
  · rw [if_pos hwc]
    obtain ⟨chunks, hchunks⟩ := chunkText_ok text 1000 htrim0
    rw [hchunks]
    simp only []
    by_cases hss : 0 < (sectionSummariesOf env (priorityChunksOf chunks) st).1.length
    · rw [if_pos hss]
      by_cases hcomb : 500 <
          (List.intercalate "\n\n".toList
            (sectionSummariesOf env (priorityChunksOf chunks) st).1).length
      · rw [if_pos hcomb]
        obtain ⟨s0, rest0, hss0⟩ : ∃ s0 rest0,
            (sectionSummariesOf env (priorityChunksOf chunks) st).1 = s0 :: rest0 := by
          rcases hx : (sectionSummariesOf env (priorityChunksOf chunks) st).1 with _ | ⟨s0, r0⟩
          · rw [hx] at hss
            simp at hss
          · exact ⟨s0, r0, rfl⟩
        obtain ⟨⟨ch, hch⟩, _, hs0ne⟩ := sectionSummariesOf_fail env hfail
          (priorityChunksOf chunks) st s0 (by rw [hss0]; simp)
        have hs0trim : ∃ Y, s0 = jsTrim Y := ⟨_, hch⟩
        obtain ⟨Y, hY⟩ := hs0trim
        obtain ⟨cw, hcwmem, hcwns⟩ := jsTrim_has_non_ws Y (by rw [← hY]; exact hs0ne)
        have hcomb_trim : jsTrim (List.intercalate "\n\n".toList
            (sectionSummariesOf env (priorityChunksOf chunks) st).1) ≠ [] := by
          rw [hss0]
          obtain ⟨tl, htl⟩ := intercalate_head "\n\n".toList s0 rest0
          rw [htl, Ne, jsTrim_eq_nil_iff]
          intro hall
          have := hall cw (by
            rw [List.mem_append]
            exact Or.inl (by rw [hY]; exact hcwmem))
          rw [hcwns] at this
          cases this
        obtain ⟨st', h'⟩ := summarizeText_fail env hfail _
          (sectionSummariesOf env (priorityChunksOf chunks) st).2 hcomb_trim
        exact ⟨_, st', h'⟩
      · rw [if_neg hcomb]
        exact ⟨_, _, rfl⟩
    · rw [if_neg hss]
      have h30 : jsTrim (text.take 3000) ≠ [] := by
        rw [hct, Ne, jsTrim_eq_nil_iff]
        intro hall
        have := hall c (by
          rw [show (c :: t).take 3000 = c :: t.take 2999 from rfl]
          simp)
        rw [hcnws] at this
        cases this
      obtain ⟨st', h'⟩ := summarizeText_fail env hfail (text.take 3000)
        (sectionSummariesOf env (priorityChunksOf chunks) st).2 h30
      exact ⟨_, st', h'⟩
  · rw [if_neg hwc]
    obtain ⟨st', h'⟩ := summarizeText_fail env hfail text st htrim0
    exact ⟨_, st', h'⟩

/-- Under an all-failing transport `processDocument` on a trimmed non-empty
text returns a result whose MCQs are the first five deterministic fallback
questions. -/
theorem processDocument_fail_core (env : Env) (hfail : AllFail env)
    (jsonParse : Str → Option JsonVal) (text : Str) (st : PState)
    (htrim : jsTrim text = text) (hne : text ≠ []) :
    ∃ r st', processDocument env jsonParse text st = (.ok r, st') ∧
      (∃ S, r.summary = jsTrim (ensureSummaryQuality text S)) ∧
      r.mcqs = (generateIntelligentMCQs text).take 5 := by
  have htrim0 : jsTrim text ≠ [] := by rw [htrim]; exact hne
  have hempty : (jsTrim text).isEmpty = false := by
    cases he : (jsTrim text).isEmpty
    · rfl
    · exact absurd (List.isEmpty_iff.mp he) htrim0
  rw [processDocument, hempty]
  simp only [Bool.false_eq_true, if_false]
  obtain ⟨S, st1, hS⟩ := summarizePath_fail env hfail text st htrim hne
  simp only [hS]
  obtain ⟨st2, hM⟩ := generateMCQs_fail env hfail jsonParse text st1 htrim0
  rw [hM]
  exact ⟨_, _, rfl, ⟨S, rfl⟩, rfl⟩

/-- C2: under a transport where every external call fails in a classified way
(client or server error status, payload-level error, timeout, network
failure — with the circuit breaker consequently opening), `processDocument`
on a cleaned (trimmed) non-empty text never propagates any upstream error:
it returns a successful result built from the deterministic fallbacks; the
only error it itself raises is the input-validation error on
empty or whitespace-only text. -/
theorem processDocument_total_all_fail (env : Env) (hfail : AllFail env)
    (jsonParse : Str → Option JsonVal) (text : Str) (st : PState) :
    (jsTrim text = text → text ≠ [] →
      ∃ r st', processDocument env jsonParse text st = (.ok r, st')) ∧
    (jsTrim text = [] →
      processDocument env jsonParse text st =
        (.error ⟨"Document text is empty or invalid".toList, none, none⟩, st)) := by
  constructor
  · intro htrim hne
    obtain ⟨r, st', h, _, _⟩ := processDocument_fail_core env hfail jsonParse text st htrim hne
    exact ⟨r, st', h⟩
  · intro hempty
    rw [processDocument, hempty]
    rfl

theorem processDocument_total_all_fail_witness :
    (∃ r st', processDocument envTimeoutW (fun _ => none)
      "ab. cd. ef. gh. ij. kl. mn. op. qr. st. uv. wx. yz".toList pst0 = (.ok r, st')) ∧
    processDocument envTimeoutW (fun _ => none) "   ".toList pst0 =
      (.error ⟨"Document text is empty or invalid".toList, none, none⟩, pst0) :=
  ⟨(processDocument_total_all_fail envTimeoutW (fun _ => trivial) (fun _ => none)
      "ab. cd. ef. gh. ij. kl. mn. op. qr. st. uv. wx. yz".toList pst0).1
      (by decide) (by decide),
   (processDocument_total_all_fail envTimeoutW (fun _ => trivial) (fun _ => none)
      "   ".toList pst0).2 (by decide)⟩

/-- The string payload of a JSON value, when it is a string. -/
def asJstr : JsonVal → Option Str
  | .jstr s => some s
  | _ => none

/-- The summary of a successful `processDocument` result. -/
def resultSummaryOf (p : Except JSError ProcessingResult × PState) : Option Str :=
  match p.1 with
  | .ok r => some r.summary
  | .error _ => none

/-- The option strings of the `i`-th MCQ of a successful result. -/
def resultOptionStrs (p : Except JSError ProcessingResult × PState) (i : Nat) :
    Option (List (Option Str)) :=
  match p.1 with
  | .ok r => (r.mcqs.get? i).map (fun m => m.options.map asJstr)
  | .error _ => none

/-- The number of MCQs of a successful result. -/
def resultMCQCount (p : Except JSError ProcessingResult × PState) : Option Nat :=
  match p.1 with
  | .ok r => some r.mcqs.length
  | .error _ => none

/-- A transport whose every response is HTTP 200 with the string body
`"[x]"` (a generated text containing a bracketed JSON array). -/
def env200W : Env := ⟨fun _ => .response 200 (.jstr "[x]".toList) [], fun _ => 0⟩

/-- A `JSON.parse` behaviour producing a one-element array of empty
objects. -/
def parseArr1 : Str → Option JsonVal := fun _ => some (.jarr [.jobj []])

/-- Well-formedness of one MCQ as claimed: a non-empty string question,
exactly four non-empty string options, and an answer that is one of the
options. -/
def MCQWellFormed (m : MCQ) : Prop :=
  (∃ q, m.question = JsonVal.jstr q ∧ q ≠ []) ∧
  m.options.length = 4 ∧
  (∀ o ∈ m.options, ∃ s, o = JsonVal.jstr s ∧ s ≠ []) ∧
  m.answer ∈ m.options

/-- Every question template produces a non-empty string. -/
theorem mcqQuestionTemplate_ne_nil (i : Nat) (phrase : Str) :
    mcqQuestionTemplate i phrase ≠ [] := by
  rw [mcqQuestionTemplate]
  rcases h : i % 5 with _ | _ | _ | _ | k
  · intro hnil
    rw [List.append_eq_nil] at hnil
    exact absurd hnil.2 (by decide)
  · intro hnil
    rw [List.append_eq_nil] at hnil
    exact absurd hnil.2 (by decide)
  · intro hnil
    rw [List.append_eq_nil] at hnil
    exact absurd hnil.2 (by decide)
  · intro hnil
    rw [List.append_eq_nil] at hnil
    exact absurd hnil.2 (by decide)
  · intro hnil
    have h2 : ("Identify the key aspect of \"".toList ++ phrase ++
        "\" mentioned in the text.".toList : Str) = [] := hnil
    rw [List.append_eq_nil] at h2
    exact absurd h2.2 (by decide)

/-- An MCQ emitted by the sentence loop is well-formed. -/
theorem mcqOfSentence_wellformed (i : Nat) (sent : Str) (m : MCQ)
    (h : mcqOfSentence i sent = some m) : MCQWellFormed m := by
  by_cases hlen : (jsTrim sent).length < 30
  · simp only [mcqOfSentence, if_pos hlen] at h
    exact Option.noConfusion h
  · simp only [mcqOfSentence, if_neg hlen] at h
    injection h with h
    subst h
    refine ⟨⟨_, rfl, mcqQuestionTemplate_ne_nil _ _⟩, rfl, ?_, List.mem_cons_self _ _⟩
    intro o ho
    simp only [List.map, List.take, List.mem_cons, List.not_mem_nil, or_false] at ho
    rcases ho with h1 | h2 | h3 | h4
    · refine ⟨_, h1, ?_⟩
      intro hnil
      rw [List.append_eq_nil] at hnil
      have := congrArg List.length hnil.1
      rw [List.length_take] at this
      simp only [List.length_nil] at this
      omega
    · exact ⟨_, h2, by decide⟩
    · exact ⟨_, h3, by decide⟩
    · exact ⟨_, h4, by decide⟩

/-- The padding MCQ is well-formed. -/
theorem paddingMCQ_wellformed (ws : List Str) : MCQWellFormed (paddingMCQ ws) := by
  refine ⟨⟨_, rfl, ?_⟩, rfl, ?_, List.mem_cons_self _ _⟩
  · intro hnil
    rw [List.append_eq_nil] at hnil
    exact absurd hnil.2 (by decide)
  · intro o ho
    simp only [paddingMCQ, List.mem_cons, List.not_mem_nil, or_false] at ho
    rcases ho with h1 | h2 | h3 | h4
    · exact ⟨_, h1, by decide⟩
    · exact ⟨_, h2, by decide⟩
    · exact ⟨_, h3, by decide⟩
    · exact ⟨_, h4, by decide⟩

/-- The deterministic fallback always produces exactly five MCQs. -/
theorem generateIntelligentMCQs_length (text : Str) :
    (generateIntelligentMCQs text).length = 5 := by
  rw [generateIntelligentMCQs]
  have hle : ((((splitRuns isSentPunct text).filter
      (fun s => 20 < (jsTrim s).length)).take 5).enum.filterMap
      (fun p => mcqOfSentence p.1 p.2)).length ≤ 5 := by
    refine le_trans (List.length_filterMap_le _ _) ?_
    rw [List.enum_length]
    exact le_trans (List.length_take_le _ _) (le_refl _)
  simp only [List.length_take, List.length_append, List.length_replicate]
  omega

/-- Every MCQ of the deterministic fallback is well-formed. -/
theorem generateIntelligentMCQs_wellformed (text : Str) :
    ∀ m ∈ generateIntelligentMCQs text, MCQWellFormed m := by
  intro m hm
  simp only [generateIntelligentMCQs] at hm
  have hm' := List.mem_of_mem_take hm
  rw [List.mem_append] at hm'
  rcases hm' with hL | hR
  · obtain ⟨p, _, hsome⟩ := List.mem_filterMap.mp hL
    exact mcqOfSentence_wellformed p.1 p.2 m hsome
  · rw [List.eq_of_mem_replicate hR]
    exact paddingMCQ_wellformed _

/-- C1 (amended): under an all-failing transport, `processDocument` on a
cleaned non-empty text succeeds, and its MCQ list is the deterministic
fallback sliced to exactly five entries, each with a non-empty string
question, exactly four non-empty string options, and an answer equal to one
of the options (in fact the first).  The stronger reading of the claim
fails: the summary can be the empty string, an option text can be repeated
inside one MCQ, and on the model-parsed path the final list is only sliced
to at most five entries, never padded. -/
theorem processDocument_mcq_wellformed (env : Env) (hfail : AllFail env)
    (jsonParse : Str → Option JsonVal) (text : Str) (st : PState)
    (htrim : jsTrim text = text) (hne : text ≠ []) :
    ∃ r st', processDocument env jsonParse text st = (.ok r, st') ∧
      r.mcqs.length = 5 ∧ ∀ m ∈ r.mcqs, MCQWellFormed m := by
  obtain ⟨r, st', h, _, hmcqs⟩ :=
    processDocument_fail_core env hfail jsonParse text st htrim hne
  have hg : r.mcqs = generateIntelligentMCQs text := by
    rw [hmcqs]
    exact List.take_of_length_le (le_of_eq (generateIntelligentMCQs_length text))
  refine ⟨r, st', h, by rw [hg, generateIntelligentMCQs_length], ?_⟩
  intro m hm
  rw [hg] at hm
  exact generateIntelligentMCQs_wellformed text m hm

/-- Witness for `processDocument_mcq_wellformed` at a concrete two-sentence
text under the always-timing-out transport. -/
theorem processDocument_mcq_wellformed_witness :
    ∃ r st', processDocument envTimeoutW (fun _ => none)
        "It is not discussed in the text. It is not discussed in the text.".toList pst0 =
        (.ok r, st') ∧ r.mcqs.length = 5 ∧ ∀ m ∈ r.mcqs, MCQWellFormed m :=
  processDocument_mcq_wellformed envTimeoutW (fun _ => trivial) (fun _ => none)
    "It is not discussed in the text. It is not discussed in the text.".toList pst0
    (by decide) (by decide)

/-- C1 counterexample: (1) on a cleaned non-empty text of thirteen short
sentences, the all-fail summary is the empty string, not a non-empty one;
(2) on a text whose first sentence equals the literal fallback option, the
first MCQ repeats the same option text twice; (3) on the model-parsed path a
transport answering a one-element JSON MCQ array yields a final list of one
MCQ, not five — the slice never pads. -/
theorem processDocument_wellformed_counterexample :
    resultSummaryOf (processDocument envTimeoutW (fun _ => none)
      "ab. cd. ef. gh. ij. kl. mn. op. qr. st. uv. wx. yz".toList pst0) = some [] ∧
    resultOptionStrs (processDocument envTimeoutW (fun _ => none)
      "It is not discussed in the text. It is not discussed in the text.".toList pst0) 0 =
      some [some "It is not discussed in the text".toList,
        some "It is not discussed in the text".toList,
        some "The text provides conflicting information".toList,
        some "Further research is needed on this topic".toList] ∧
    resultMCQCount (processDocument env200W parseArr1
      "ab. cd. ef. gh. ij. kl. mn. op. qr. st. uv. wx. yz".toList pst0) = some 1 :=
  ⟨by decide, by decide, by decide⟩

/-- `dropWhile` keeps a suffix headed by a non-matching character intact. -/
theorem dropWhile_append_suffix (p : Char → Bool) :
    ∀ (a : Str) (d : Char) (u : Str), p d = false →
    ∃ a2, List.dropWhile p (a ++ d :: u) = a2 ++ d :: u := by
  intro a
  induction a with
  | nil =>
    intro d u hd
    exact ⟨[], by
      rw [List.nil_append, List.dropWhile_cons_of_neg (by simp [hd])]⟩
  | cons e a ih =>
    intro d u hd
    by_cases he : p e
    · obtain ⟨a2, h2⟩ := ih d u hd
      exact ⟨a2, by rw [List.cons_append, List.dropWhile_cons_of_pos he, h2]⟩
    · exact ⟨e :: a, by rw [List.cons_append, List.dropWhile_cons_of_neg he]⟩

/-- Trimming an extension of a trimmed non-empty string keeps it as a
prefix. -/
theorem jsTrim_append_strip (x y : Str) (c : Char) (t : Str) (hx : x = c :: t)
    (hhead : jsIsWs c = false) (d : Char) (u : Str) (hxr : x.reverse = d :: u)
    (hlast : jsIsWs d = false) : ∃ r, jsTrim (x ++ y) = x ++ r := by
  have h1 : (x ++ y).dropWhile jsIsWs = x ++ y := by
    rw [hx, List.cons_append, List.dropWhile_cons_of_neg (by simp [hhead])]
  obtain ⟨a2, h2⟩ := dropWhile_append_suffix jsIsWs y.reverse d u hlast
  refine ⟨a2.reverse, ?_⟩
  rw [jsTrim, h1, List.reverse_append, hxr, h2, List.reverse_append]
  have h3 : (d :: u).reverse = x := by rw [← hxr, List.reverse_reverse]
  rw [h3]

/-- The whitespace collapse distributes over an append at a non-whitespace
character. -/
theorem collapseWsGo_append_last (d : Char) (hd : jsIsWs d = false) :
    ∀ (a b : Str) (f : Bool),
    collapseWsGo (a ++ d :: b) f = collapseWsGo (a ++ [d]) f ++ collapseWsGo b false := by
  intro a
  induction a with
  | nil =>
    intro b f
    rw [List.nil_append, List.nil_append, collapseWsGo, collapseWsGo,
      if_neg (by simp [hd]), if_neg (by simp [hd]), collapseWsGo]
    rfl
  | cons e a ih =>
    intro b f
    rw [List.cons_append, List.cons_append, collapseWsGo, collapseWsGo]
    by_cases he : jsIsWs e
    · rw [if_pos he, if_pos he]
      cases f
      · rw [if_neg (by simp), if_neg (by simp), ih b true]
        rfl
      · rw [if_pos rfl, if_pos rfl]
        exact ih b true
    · rw [if_neg he, if_neg he, ih b false]
      rfl

/-- Characters of a collapsed string: a space, or a non-whitespace character
of the input. -/
theorem collapseWsGo_mem :
    ∀ (s : Str) (f : Bool) (c : Char), c ∈ collapseWsGo s f →
    c = ' ' ∨ (c ∈ s ∧ jsIsWs c = false) := by
  intro s
  induction s with
  | nil => intro f c hc; rw [collapseWsGo] at hc; cases hc
  | cons e s ih =>
    intro f c hc
    rw [collapseWsGo] at hc
    by_cases he : jsIsWs e
    · rw [if_pos he] at hc
      cases f
      · rw [if_neg (by simp)] at hc
        rcases List.mem_cons.mp hc with h | h
        · exact Or.inl h
        · rcases ih true c h with h' | h'
          · exact Or.inl h'
          · exact Or.inr ⟨List.mem_cons_of_mem e h'.1, h'.2⟩
      · rw [if_pos rfl] at hc
        rcases ih true c hc with h' | h'
        · exact Or.inl h'
        · exact Or.inr ⟨List.mem_cons_of_mem e h'.1, h'.2⟩
    · rw [if_neg he] at hc
      rcases List.mem_cons.mp hc with h | h
      · subst h
        exact Or.inr ⟨List.mem_cons_self _ _, by simpa using he⟩
      · rcases ih false c h with h' | h'
        · exact Or.inl h'
        · exact Or.inr ⟨List.mem_cons_of_mem e h'.1, h'.2⟩

/-- A trailing non-whitespace character survives the whitespace collapse as
the last character. -/
theorem collapseWsGo_concat (d : Char) (hd : jsIsWs d = false) :
    ∀ (a : Str) (f : Bool), ∃ w, collapseWsGo (a ++ [d]) f = w ++ [d] := by
  intro a
  induction a with
  | nil =>
    intro f
    refine ⟨[], ?_⟩
    rw [List.nil_append, collapseWsGo, if_neg (by simp [hd]), collapseWsGo]
  | cons e a ih =>
    intro f
    rw [List.cons_append, collapseWsGo]
    by_cases he : jsIsWs e
    · rw [if_pos he]
      cases f
      · obtain ⟨w, hw⟩ := ih true
        exact ⟨' ' :: w, by rw [if_neg (by simp), hw]; rfl⟩
      · obtain ⟨w, hw⟩ := ih true
        exact ⟨w, by rw [if_pos rfl, hw]⟩
    · obtain ⟨w, hw⟩ := ih false
      exact ⟨e :: w, by rw [if_neg he, hw]; rfl⟩

/-- The triple-newline fix is the identity on a newline-free prefix. -/
theorem tripleNlFixGo_append_no_nl :
    ∀ (a b : Str), (∀ c ∈ a, c ≠ '\n') →
    tripleNlFixGo (a ++ b) none = a ++ tripleNlFixGo b none := by
  intro a
  induction a with
  | nil => intro b _; rw [List.nil_append, List.nil_append]
  | cons e a ih =>
    intro b h
    rw [List.cons_append, tripleNlFixGo, if_neg (h e (List.mem_cons_self _ _)),
      ih b (fun c hc => h c (List.mem_cons_of_mem e hc)), List.cons_append]

/-- The duplicate-dot fix is the identity on a dot-free prefix. -/
theorem replDotDotGo_append_no_dot :
    ∀ (a b : Str), (∀ c ∈ a, c ≠ '.') →
    replDotDotGo (a ++ b) none = a ++ replDotDotGo b none := by
  intro a
  induction a with
  | nil => intro b _; rw [List.nil_append, List.nil_append]
  | cons e a ih =>
    intro b h
    rw [List.cons_append, replDotDotGo, if_neg (h e (List.mem_cons_self _ _)),
      ih b (fun c hc => h c (List.mem_cons_of_mem e hc)), List.cons_append]

/-- Characters of a trimmed string are characters of the string. -/
theorem jsTrim_subset (s : Str) : ∀ c ∈ jsTrim s, c ∈ s := by
  intro c hc
  rw [jsTrim, List.mem_reverse] at hc
  have h1 := (List.dropWhile_sublist _).subset hc
  rw [List.mem_reverse] at h1
  exact (List.dropWhile_sublist _).subset h1

/-- The picked problem sentence comes from the introduction section. -/
theorem pickProblemSentence_mem (l : List Str) (hl : l ≠ []) :
    pickProblemSentence l ∈ l := by
  rw [pickProblemSentence]
  rcases hf : l.find?
      (fun s => problemIndicators.any (fun ind => includesStr (toLowerStr s) ind)) with _ | s
  · rcases l with _ | ⟨a, t⟩
    · exact absurd rfl hl
    · exact List.mem_cons_self _ _
  · exact List.mem_of_find?_eq_some hf

/-- The composer output is the cleanup chain applied to a string beginning
with the trimmed problem sentence. -/
theorem createStructuredSummary_prefix (extracted : Extracted)
    (hintro : extracted.introSection ≠ [])
    (hps : pickProblemSentence extracted.introSection ≠ []) :
    ∃ Y, createStructuredSummary extracted =
      jsTrim (replDotDot (tripleNlFix (collapseWs (jsTrim
        (jsTrim (pickProblemSentence extracted.introSection) ++ Y))))) := by
  have hlen : 0 < extracted.introSection.length := List.length_pos.mpr hintro
  have hemp : (!(pickProblemSentence extracted.introSection).isEmpty) = true := by
    cases he : (pickProblemSentence extracted.introSection).isEmpty
    · rfl
    · exact absurd (List.isEmpty_iff.mp he) hps
  simp only [createStructuredSummary]
  rw [if_pos hlen, if_pos hemp]
  simp only [List.append_assoc]
  exact ⟨_, rfl⟩

/-- C5 (amended): whenever the analysis finds a non-empty introduction
section, the deterministic composer returns a non-empty string that begins
with the (whitespace-collapsed, trimmed) problem/introduction sentence it
picked from the introduction section.  The stronger reading of the claim
fails: a cleaned non-empty 50-character text of short sentences — every
sentence under the 20-character sentence filter and its only paragraph not
over the 50-character paragraph filter, so every composer section is empty —
produces the empty string, and when the introduction section has a second
sentence the output need not contain it. -/
theorem composer_intro_prefix (text : Str)
    (hintro : (extractKeyInformation text).introSection ≠ []) :
    extractiveSummary text ≠ [] ∧
    ∃ tail, extractiveSummary text =
      collapseWs (jsTrim (pickProblemSentence
        (extractKeyInformation text).introSection)) ++ tail := by
  have hpsmem : pickProblemSentence (extractKeyInformation text).introSection ∈
      (extractKeyInformation text).introSection := pickProblemSentence_mem _ hintro
  have hsent : pickProblemSentence (extractKeyInformation text).introSection ∈
      (splitRuns isSentPunct text).filter (fun s => 20 < (jsTrim s).length) :=
    List.mem_of_mem_take hpsmem
  set ps := pickProblemSentence (extractKeyInformation text).introSection with hpsdef
  have h20 : 20 < (jsTrim ps).length := by
    have := (List.mem_filter.mp hsent).2
    simpa using this
  have hpstrim_ne : jsTrim ps ≠ [] := by
    intro h
    rw [h] at h20
    simp at h20
  have hps_ne : ps ≠ [] := by
    intro h
    rw [h] at hpstrim_ne
    exact hpstrim_ne rfl
  obtain ⟨c, t, hct⟩ : ∃ c t, jsTrim ps = c :: t := by
    rcases h : jsTrim ps with _ | ⟨c, t⟩
    · exact absurd h hpstrim_ne
    · exact ⟨c, t, rfl⟩
  have hchead : jsIsWs c = false := jsTrim_head ps c t hct
  obtain ⟨d, u, hdu⟩ : ∃ d u, (jsTrim ps).reverse = d :: u := by
    rcases h : (jsTrim ps).reverse with _ | ⟨d, u⟩
    · rw [List.reverse_eq_nil_iff] at h
      exact absurd h hpstrim_ne
    · exact ⟨d, u, rfl⟩
  have hdlast : jsIsWs d = false := jsTrim_rev_head ps d u hdu
  have hxdecomp : jsTrim ps = u.reverse ++ [d] := by
    have h := congrArg List.reverse hdu
    rw [List.reverse_reverse] at h
    rw [h, List.reverse_cons]
  obtain ⟨Y, hshape⟩ := createStructuredSummary_prefix (extractKeyInformation text) hintro hps_ne
  obtain ⟨r1, hr1⟩ := jsTrim_append_strip (jsTrim ps) Y c t hct hchead d u hdu hdlast
  have hstage2 : collapseWs (jsTrim ps ++ r1) =
      collapseWs (jsTrim ps) ++ collapseWsGo r1 false := by
    rw [collapseWs, collapseWs]
    calc collapseWsGo (jsTrim ps ++ r1) false
        = collapseWsGo (u.reverse ++ d :: r1) false := by
          rw [hxdecomp, List.append_assoc]
          rfl
      _ = collapseWsGo (u.reverse ++ [d]) false ++ collapseWsGo r1 false :=
          collapseWsGo_append_last d hdlast u.reverse r1 false
      _ = collapseWsGo (jsTrim ps) false ++ collapseWsGo r1 false := by rw [← hxdecomp]
  have hPhead : collapseWs (jsTrim ps) = c :: collapseWsGo t false := by
    rw [collapseWs, hct, collapseWsGo, if_neg (by simp [hchead])]
  obtain ⟨w, hPlast⟩ : ∃ w, collapseWs (jsTrim ps) = w ++ [d] := by
    obtain ⟨w, hw⟩ := collapseWsGo_concat d hdlast u.reverse false
    exact ⟨w, by rw [collapseWs, hxdecomp, hw]⟩
  have hPmem : ∀ ch ∈ collapseWs (jsTrim ps), ch = ' ' ∨ (ch ∈ jsTrim ps ∧ jsIsWs ch = false) := by
    intro ch hch
    exact collapseWsGo_mem (jsTrim ps) false ch (by rw [collapseWs] at hch; exact hch)
  have hPnoNl : ∀ ch ∈ collapseWs (jsTrim ps), ch ≠ '\n' := by
    intro ch hch hnl
    rcases hPmem ch hch with h | h
    · rw [hnl] at h
      exact absurd h (by decide)
    · rw [hnl] at h
      exact absurd h.2 (by decide)
  have hPnoDot : ∀ ch ∈ collapseWs (jsTrim ps), ch ≠ '.' := by
    intro ch hch hdot
    rcases hPmem ch hch with h | h
    · rw [hdot] at h
      exact absurd h (by decide)
    · rw [hdot] at h
      have hmem : ('.' : Char) ∈ ps := jsTrim_subset ps '.' h.1
      have hnosep := splitRuns_no_sep isSentPunct text ps
        (List.mem_of_mem_filter hsent) '.' hmem
      exact absurd hnosep (by decide)
  have h3 : tripleNlFix (collapseWs (jsTrim ps) ++ collapseWsGo r1 false) =
      collapseWs (jsTrim ps) ++ tripleNlFixGo (collapseWsGo r1 false) none := by
    rw [tripleNlFix]
    exact tripleNlFixGo_append_no_nl _ _ hPnoNl
  have h4 : replDotDot (collapseWs (jsTrim ps) ++ tripleNlFixGo (collapseWsGo r1 false) none) =
      collapseWs (jsTrim ps) ++
        replDotDotGo (tripleNlFixGo (collapseWsGo r1 false) none) none := by
    rw [replDotDot]
    exact replDotDotGo_append_no_dot _ _ hPnoDot
  obtain ⟨r5, hr5⟩ := jsTrim_append_strip (collapseWs (jsTrim ps))
    (replDotDotGo (tripleNlFixGo (collapseWsGo r1 false) none) none)
    c (collapseWsGo t false) hPhead hchead d w.reverse
    (by rw [hPlast, List.reverse_append]; rfl) hdlast
  have hfinal : extractiveSummary text = collapseWs (jsTrim ps) ++ r5 := by
    rw [extractiveSummary, hshape, hr1, hstage2, h3, h4, hr5]
  constructor
  · rw [hfinal, hPhead]
    simp
  · exact ⟨r5, hfinal⟩

/-- A ten-sentence text whose first sentence is long (205 characters) and
whose other nine sentences use only short words. -/
def introTextW : Str :=
  ("The problem of accurate widget calibration in modern factories demands careful continuous attention because temperature variation and humidity variation degrade measurement precision across seasonal cycles. " ++
   "we did note the gap now and then all day. " ++
   "the crew kept a log of each shift for a week. " ++
   "light rain fell on the roof all night long. " ++
   "a small team met at dawn to check the gear. " ++
   "they took notes and sent them out by noon. " ++
   "the old pump ran dry twice in one day. " ++
   "new parts came in a box on the last truck. " ++
   "the day ended with a calm walk by the gate. " ++
   "all hands met again to plan the next run.").toList

set_option maxRecDepth 8000 in
/-- Witness for `composer_intro_prefix` at the concrete ten-sentence text. -/
theorem composer_intro_prefix_witness :
    extractiveSummary introTextW ≠ [] ∧
    ∃ tail, extractiveSummary introTextW =
      collapseWs (jsTrim (pickProblemSentence
        (extractKeyInformation introTextW).introSection)) ++ tail :=
  composer_intro_prefix introTextW (by decide)

set_option maxRecDepth 8000 in
/-- C5 counterexample: (1) a cleaned non-empty 50-character text of thirteen
short sentences — every sentence below the 20-character sentence filter and
the whole text, its only paragraph, not above the strictly-over-50 paragraph
filter — produces the empty composer output; (2) a text whose introduction
section has two sentences: the second one appears in the text but not in the
composer output, so the output does not contain the whole introduction
section. -/
theorem composer_intro_counterexample :
    (jsTrim "ab. cd. ef. gh. ij. kl. mn. op. qr. st. uv. wx. yz".toList =
        "ab. cd. ef. gh. ij. kl. mn. op. qr. st. uv. wx. yz".toList ∧
      "ab. cd. ef. gh. ij. kl. mn. op. qr. st. uv. wx. yz".toList ≠ [] ∧
      extractiveSummary "ab. cd. ef. gh. ij. kl. mn. op. qr. st. uv. wx. yz".toList = []) ∧
    ((extractKeyInformation introTextW).introSection.length = 2 ∧
      includesStr introTextW
        (jsTrim ((extractKeyInformation introTextW).introSection.getD 1 [])) = true ∧
      jsTrim ((extractKeyInformation introTextW).introSection.getD 1 []) ≠ [] ∧
      includesStr (extractiveSummary introTextW)
        (jsTrim ((extractKeyInformation introTextW).introSection.getD 1 [])) = false) :=
  ⟨⟨by decide, by decide, by decide⟩, ⟨by decide, by decide, by decide, by decide⟩⟩
